import Mathlib

/-!
Verification development for `scripts/scrape_comments.py`, the
comment-triggered benchmark dispatcher.

Modelling conventions:
* Python strings are modelled as lists of Unicode code points (`PyStr := List Nat`).
  `pystr` converts a Lean string literal to this representation.
* Python's `str.lower`, `str.strip`, `str.split`, `\s` and the character class
  `[a-zA-Z0-9_\s]` are modelled for the ASCII range (all trigger phrases,
  benchmark names and markers in the program are ASCII).
* The two trigger regular expressions
  `^\s*run\s+benchmarks\s*$` and `^\s*run\s+benchmark\s+([a-zA-Z0-9_\s]+?)\s*$`
  (both `re.IGNORECASE`) are embedded as deterministic matchers
  (`matchRunBenchmarks`, `runBenchmarkTail`): skip leading whitespace, consume
  the keywords case-insensitively separated by at least one whitespace
  character, and for the second one return the remaining tail, which must
  start with a whitespace character and consist only of characters from the
  class.  `Python's `$` also matches just before a final newline; since a
  newline is `\s`, the `\s*$` suffix of both patterns gives the same language.
* The external store (existing reply bodies per PR, job files, `.done`
  sidecars) is a `St` record; GitHub API side effects of one
  `process_comment` call are a state transition plus a list of events
  (`Ev.reply`, `Ev.jobWrite`, `Ev.reaction`).  The per-run comment cache of
  the script is kept in sync with the store by the script itself (every POST
  appends the body to the cached list), so reading the store directly is an
  exact model of the cached reads within a run.
* `run_gh_api` calls `sys.exit` when `gh` returns a non-zero code, and
  `fetch_recent_review_comments` calls `sys.exit(1)` when the response body
  does not parse; these process terminations are modelled explicitly
  (`mainLoop` returning an `exited` flag, `Except Nat` results).
-/

namespace Scrape

/-- Python strings as lists of code points. -/
abbrev PyStr := List Nat

/-- Convert a Lean string literal to the code-point model. -/
def pystr (s : String) : PyStr := s.data.map Char.toNat

/-- Python `\s` / `str.isspace` for the ASCII range: space, tab, newline,
vertical tab, form feed, carriage return. -/
def isSpace (c : Nat) : Bool :=
  c = 32 || c = 9 || c = 10 || c = 11 || c = 12 || c = 13

/-- Python `str.lower` on one code point (ASCII range). -/
def lowerC (c : Nat) : Nat := if 65 ≤ c ∧ c ≤ 90 then c + 32 else c

/-- Python `str.lower`. -/
def lowerS (s : PyStr) : PyStr := s.map lowerC

/-- Drop leading whitespace (Python `str.lstrip`). -/
def dropWs (s : PyStr) : PyStr := s.dropWhile isSpace

/-- Python `str.rstrip`. -/
def rstripWs (s : PyStr) : PyStr := (s.reverse.dropWhile isSpace).reverse

/-- Python `str.strip`. -/
def pyStrip (s : PyStr) : PyStr := rstripWs (dropWs s)

/-- Python `needle in hay` substring test. -/
def isSub (needle hay : PyStr) : Bool := decide (needle <:+: hay)

/-- Python `str.startswith`. -/
def startsW (p s : PyStr) : Bool := decide (p <+: s)

/-- Python `str.endswith`. -/
def endsW (p s : PyStr) : Bool := decide (p <:+ s)

/-- Helper for Python `str.split()` (whitespace split, empty tokens dropped):
`acc` is the current token accumulated in reverse. -/
def pySplitAux : PyStr → PyStr → List PyStr
  | [], acc => if acc = [] then [] else [acc.reverse]
  | c :: r, acc =>
    if isSpace c then
      if acc = [] then pySplitAux r [] else acc.reverse :: pySplitAux r []
    else pySplitAux r (c :: acc)

/-- Python `str.split()` with no argument. -/
def pySplit (s : PyStr) : List PyStr := pySplitAux s []

/-- Python `str.split(sep)` for a one-character separator (keeps empty parts,
always returns at least one part). -/
def splitSep (sep : Nat) : PyStr → List PyStr
  | [] => [[]]
  | c :: r =>
    if c = sep then [] :: splitSep sep r
    else (splitSep sep r).modifyHead (c :: ·)

/-- Python `sep.join`. -/
def pyJoin (sep : PyStr) : List PyStr → PyStr
  | [] => []
  | [p] => p
  | p :: q :: r => p ++ sep ++ pyJoin sep (q :: r)

/-- Python `s.split(c, 1)[1]`: everything after the first occurrence of `c`
(used only on lines known to contain `c`). -/
def afterFirst (c : Nat) (s : PyStr) : PyStr := (s.dropWhile (· ≠ c)).drop 1

/-- Lexicographic `≤` on code-point strings (Python string comparison). -/
def lexLe : PyStr → PyStr → Bool
  | [], _ => true
  | _ :: _, [] => false
  | a :: as, b :: bs => a < b || (a = b && lexLe as bs)

/-- Stable insertion used by `sortLe`: `x` goes after every element whose key
is `≤`-before-or-equal, which is the stability contract of Python `sorted`. -/
def insertLe (le : α → α → Bool) (x : α) : List α → List α
  | [] => [x]
  | y :: ys => if le y x then y :: insertLe le x ys else x :: y :: ys

/-- Stable sort (model of Python `sorted` with a key). -/
def sortLe (le : α → α → Bool) (l : List α) : List α :=
  l.foldl (fun acc x => insertLe le x acc) []

/-! ## Repo configuration (`RepoConfig`, allow-lists, `build_configs`) -/

/-- `ALLOWED_USERS` from the source. -/
def ALLOWED_USERS : List PyStr :=
  [pystr "alamb", pystr "Dandandan", pystr "adriangb", pystr "rluvaton",
   pystr "geoffreyclaude", pystr "xudong963", pystr "zhuqi-lucas",
   pystr "Omega359"]

/-- `ALLOWED_BENCHMARKS_DF` from the source. -/
def ALLOWED_BENCHMARKS_DF : List PyStr :=
  [pystr "tpch", pystr "tpch10", pystr "tpch_mem", pystr "tpch_mem10",
   pystr "clickbench_partitioned", pystr "clickbench_extended",
   pystr "clickbench_1", pystr "clickbench_pushdown"]

/-- `ALLOWED_CRITERION_BENCHMARKS_DF` from the source. -/
def ALLOWED_CRITERION_BENCHMARKS_DF : List PyStr :=
  [pystr "sql_planner", pystr "in_list", pystr "case_when",
   pystr "aggregate_vectorized", pystr "aggregate_query_sql"]

/-- `ALLOWED_CRITERION_BENCHMARKS_ARROW` from the source. -/
def ALLOWED_CRITERION_BENCHMARKS_ARROW : List PyStr :=
  [pystr "arrow_reader", pystr "arrow_reader_clickbench",
   pystr "arrow_reader_row_filter", pystr "arrow_statistics",
   pystr "arrow_writer", pystr "array_iter", pystr "coalesce_kernels",
   pystr "take_kernels", pystr "interleave_kernels", pystr "union_array",
   pystr "variant_builder", pystr "variant_kernels",
   pystr "variant_validation", pystr "filter_kernels",
   pystr "concatenate_kernels"]

/-- `RepoConfig` dataclass from the source.  Sets are modelled as lists with
decidable membership. -/
structure RepoConfig where
  repo : PyStr
  allowed_standard : List PyStr
  allowed_criterion : List PyStr
  job_prefix : PyStr
  std_cmd : PyStr
  criterion_cmd : PyStr
  file_naming : PyStr
  deriving DecidableEq, Repr

/-- The `apache/datafusion` configuration built by `build_configs`. -/
def cfgDF : RepoConfig :=
  { repo := pystr "apache/datafusion"
    allowed_standard := ALLOWED_BENCHMARKS_DF
    allowed_criterion := ALLOWED_CRITERION_BENCHMARKS_DF
    job_prefix := pystr ""
    std_cmd := pystr "gh_compare_branch.sh"
    criterion_cmd := pystr "gh_compare_branch_bench.sh"
    file_naming := pystr "df" }

/-- The `apache/arrow-rs` configuration built by `build_configs`. -/
def cfgArrow : RepoConfig :=
  { repo := pystr "apache/arrow-rs"
    allowed_standard := []
    allowed_criterion := ALLOWED_CRITERION_BENCHMARKS_ARROW
    job_prefix := pystr "arrow-"
    std_cmd := pystr "gh_compare_arrow.sh"
    criterion_cmd := pystr "gh_compare_arrow.sh"
    file_naming := pystr "arrow" }

/-- `build_configs`: split the colon-separated repo list, strip entries,
recognize the two known repositories, skip anything else. -/
def build_configs (env_repos : PyStr) : List RepoConfig :=
  ((splitSep 58 env_repos).map pyStrip).filterMap fun r =>
    if r = [] then none
    else if r = pystr "apache/datafusion" then some cfgDF
    else if r = pystr "apache/arrow-rs" then some cfgArrow
    else none

/-! ## Command classifier (`detect_benchmark`) -/

/-- Consume `kw` case-insensitively from the front of `s`
(the keyword comparison Python's `re.IGNORECASE` performs). -/
def stripCI : PyStr → PyStr → Option PyStr
  | [], s => some s
  | _ :: _, [] => none
  | k :: ks, c :: cs => if lowerC c = lowerC k then stripCI ks cs else none

/-- Consume `\s+` (at least one whitespace character, then any further
whitespace). -/
def eatWs1 : PyStr → Option PyStr
  | [] => none
  | c :: r => if isSpace c then some (dropWs r) else none

/-- Membership in the character class `[a-zA-Z0-9_\s]`. -/
def isClassChar (c : Nat) : Bool :=
  (97 ≤ c && c ≤ 122) || (65 ≤ c && c ≤ 90) || (48 ≤ c && c ≤ 57) ||
    c = 95 || isSpace c

/-- The regex `^\s*run\s+benchmarks\s*$` with `re.IGNORECASE`. -/
def matchRunBenchmarks (s : PyStr) : Bool :=
  match stripCI (pystr "run") (dropWs s) with
  | none => false
  | some s1 =>
    match eatWs1 s1 with
    | none => false
    | some s2 =>
      match stripCI (pystr "benchmarks") s2 with
      | none => false
      | some s3 => s3.all isSpace

/-- The regex `^\s*run\s+benchmark\s+([a-zA-Z0-9_\s]+?)\s*$` with
`re.IGNORECASE`.  On a match it returns the whole tail after `benchmark`
(one leading whitespace character, then class characters only); the captured
group is that tail minus surrounding whitespace, and since the caller only
whitespace-splits the group, returning the tail is an exact model. -/
def runBenchmarkTail (s : PyStr) : Option PyStr :=
  match stripCI (pystr "run") (dropWs s) with
  | none => none
  | some s1 =>
    match eatWs1 s1 with
    | none => none
    | some s2 =>
      match stripCI (pystr "benchmark") s2 with
      | none => none
      | some s3 =>
        match s3 with
        | [] => none
        | w :: rest =>
          if isSpace w ∧ (w :: rest).all isClassChar then some (w :: rest)
          else none

/-- `detect_benchmark` from the source: `some []` for the default suite,
`some names` when every requested name is allow-listed, `none` otherwise. -/
def detect_benchmark (cfg : RepoConfig) (body : PyStr) : Option (List PyStr) :=
  if matchRunBenchmarks body then some []
  else
    match runBenchmarkTail body with
    | none => none
    | some tail =>
      let names := pySplit tail
      if names = [] then none
      else if names.all fun n =>
          decide (n ∈ cfg.allowed_standard ∨ n ∈ cfg.allowed_criterion) then
        some names
      else none

/-- The queue-trigger test `body.strip().lower() == "show benchmark queue"`
from `process_comment`. -/
def isQueueBody (body : PyStr) : Bool :=
  lowerS (pyStrip body) = pystr "show benchmark queue"

/-! ## URL handling and the job descriptor emitter -/

/-- `pr_number_from_url`: `url.rstrip("/").split("/")` and take the last
part. -/
def pr_number_from_url (url : PyStr) : PyStr :=
  ((splitSep 47 ((url.reverse.dropWhile (· = 47)).reverse)).getLast?).getD []

/-- The PR URL `https://github.com/{cfg.repo}/pull/{pr_number}` interpolated
throughout the source. -/
def prUrl (cfg : RepoConfig) (pr_number : PyStr) : PyStr :=
  pystr "https://github.com/" ++ cfg.repo ++ pystr "/pull/" ++ pr_number

/-- One invocation line of `get_benchmark_script` for a non-empty request. -/
def benchLine (cfg : RepoConfig) (pr_number : PyStr) (bench : PyStr) : PyStr :=
  if bench ∈ cfg.allowed_criterion then
    pystr "BENCH_NAME=\x22" ++ bench ++ pystr "\x22 ./" ++ cfg.criterion_cmd ++
      pystr " " ++ prUrl cfg pr_number
  else
    pystr "BENCHMARKS=\x22" ++ bench ++ pystr "\x22 ./" ++ cfg.std_cmd ++
      pystr " " ++ prUrl cfg pr_number

/-- `get_benchmark_script` from the source. -/
def get_benchmark_script (cfg : RepoConfig) (pr_number : PyStr)
    (benches : List PyStr) : PyStr :=
  if benches ≠ [] then pyJoin [10] (benches.map (benchLine cfg pr_number))
  else pystr "./" ++ cfg.std_cmd ++ pystr " " ++ prUrl cfg pr_number

/-- `job_file_name` from the source. -/
def job_file_name (cfg : RepoConfig) (pr_number comment_id : PyStr) : PyStr :=
  if cfg.file_naming = pystr "arrow" then
    pystr "jobs/" ++ cfg.job_prefix ++ pr_number ++ pystr "-" ++ comment_id ++
      pystr ".sh"
  else pystr "jobs/" ++ pr_number ++ pystr "_" ++ comment_id ++ pystr ".sh"

/-! ## Reply bodies -/

/-- `SCRIPT_MARKDOWN_LINK` from the source. -/
def SCRIPT_MARKDOWN_LINK : PyStr :=
  pystr "[`scrape_comments.py`](https://github.com/alamb/datafusion-benchmarking/blob/main/scripts/scrape_comments.py)"

/-- One markdown user link of `allowed_users_markdown`. -/
def userLink (u : PyStr) : PyStr :=
  pystr "[" ++ u ++ pystr "](https://github.com/" ++ u ++ pystr ")"

/-- `allowed_users_markdown`: comma-joined markdown links for the sorted
allow-list. -/
def allowed_users_markdown : PyStr :=
  pyJoin (pystr ", ") ((sortLe lexLe ALLOWED_USERS).map userLink)

/-- The body posted by `post_user_notice`. -/
def notice_body (login comment_url : PyStr) : PyStr :=
  pystr "🤖 Hi @" ++ login ++ pystr ", thanks for the request (" ++
    comment_url ++ pystr "). " ++ SCRIPT_MARKDOWN_LINK ++
    pystr " only responds to whitelisted users. Allowed users: " ++
    allowed_users_markdown ++ pystr "."

/-- The body posted by `post_supported_benchmarks`. -/
def supported_body (cfg : RepoConfig) (login comment_url : PyStr)
    (requested : List PyStr) : PyStr :=
  let supported_standard :=
    if cfg.allowed_standard = [] then pystr "(none)"
    else pyJoin (pystr ", ") (sortLe lexLe cfg.allowed_standard)
  let supported_criterion :=
    if cfg.allowed_criterion = [] then pystr "(none)"
    else pyJoin (pystr ", ") (sortLe lexLe cfg.allowed_criterion)
  let bad := requested.filter fun b =>
    decide (b ∉ cfg.allowed_standard ∧ b ∉ cfg.allowed_criterion)
  let unsupported :=
    if bad = [] then []
    else pystr "\nUnsupported benchmarks: " ++ pyJoin (pystr ", ") bad ++
      pystr "."
  pystr "🤖 Hi @" ++ login ++ pystr ", thanks for the request (" ++
    comment_url ++ pystr ").\n\n" ++ SCRIPT_MARKDOWN_LINK ++
    pystr " only supports whitelisted benchmarks.\n- Standard: " ++
    supported_standard ++ pystr "\n- Criterion: " ++ supported_criterion ++
    pystr "\n\nPlease choose one or more of these with " ++
    pystr "`run benchmark <name>` or `run benchmark <name1> <name2>...`" ++
    unsupported

/-! ## Job files, `parse_job_metadata`, `list_job_files`, the queue body -/

/-- A file in the `jobs/` directory: full path, last-modified time, text
content. -/
structure JobFile where
  name : PyStr
  mtime : Nat
  content : PyStr
  deriving DecidableEq, Repr

/-- Leftmost occurrence of `key` followed by a non-empty run of non-quote
characters and a closing double quote: the captured group of
`re.search(key + r'"([^"]+)"', line)` where `key` ends in `="`. -/
def findQuoted (key : PyStr) : PyStr → Option PyStr
  | [] => none
  | c :: rest =>
    if startsW key (c :: rest) then
      let r := (c :: rest).drop key.length
      let g := r.takeWhile (· ≠ 34)
      if g ≠ [] ∧ g.length < r.length then some g else findQuoted key rest
    else findQuoted key rest

/-- Per-line state machine of `parse_job_metadata`:
`(user, comment, benchmarks)` accumulated over the stripped lines. -/
def pjmLine (st : PyStr × PyStr × List PyStr) (line : PyStr) :
    PyStr × PyStr × List PyStr :=
  let l := pyStrip line
  let user := st.1
  let comment := st.2.1
  let benchmarks := st.2.2
  if startsW (pystr "# User:") l then
    let v := pyStrip (afterFirst 58 l)
    (if v = [] then user else v, comment, benchmarks)
  else if startsW (pystr "# Comment:") l then
    (user, pyStrip (afterFirst 58 l), benchmarks)
  else if isSub (pystr "BENCHMARKS=") l then
    match findQuoted (pystr "BENCHMARKS=\x22") l with
    | some g => (user, comment, benchmarks ++ pySplit g)
    | none => (user, comment, benchmarks)
  else if isSub (pystr "BENCH_NAME=") l then
    match findQuoted (pystr "BENCH_NAME=\x22") l with
    | some g => (user, comment, benchmarks ++ [g])
    | none => (user, comment, benchmarks)
  else (user, comment, benchmarks)

/-- `parse_job_metadata`: reconstruct `(user, benchmarks, comment_url)` from a
job file's text. -/
def parse_job_metadata (content : PyStr) : PyStr × PyStr × PyStr :=
  let st := (splitSep 10 content).foldl pjmLine (pystr "unknown", [], [])
  let benches := if st.2.2 = [] then pystr "default" else pyJoin [32] st.2.2
  (st.1, benches, st.2.1)

/-- `list_job_files`: the `.sh` files of the store, ordered by last-modified
time ascending (Python's stable `sorted` by `getmtime`). -/
def list_job_files (jobs : List JobFile) : List JobFile :=
  sortLe (fun a b => a.mtime ≤ b.mtime)
    (jobs.filter fun j => endsW (pystr ".sh") j.name)

/-- `os.path.basename` for the `jobs/<file>` paths of this program. -/
def basename (path : PyStr) : PyStr :=
  ((splitSep 47 path).getLast?).getD []

/-- One markdown table row of `post_queue`. -/
def queueRow (j : JobFile) : PyStr :=
  let meta := parse_job_metadata j.content
  let comment_link := if meta.2.2 = [] then pystr "unknown" else meta.2.2
  let benches_str := if meta.2.1 = [] then pystr "unknown" else meta.2.1
  pystr "| `" ++ basename j.name ++ pystr "` | " ++ meta.1 ++ pystr " | " ++
    benches_str ++ pystr " | `" ++ comment_link ++ pystr "` |"

/-- The reply body built by `post_queue` from the current job store. -/
def queue_body (login comment_url : PyStr) (jobs : List JobFile) : PyStr :=
  let job_files := list_job_files jobs
  let header :=
    pystr "🤖 Hi @" ++ login ++
      pystr ", you asked to view the benchmark queue (" ++ comment_url ++
      pystr ")."
  let lines :=
    if job_files = [] then [header, [], pystr "No pending jobs in `jobs/`."]
    else
      header :: [] :: pystr "| Job | User | Benchmarks | Comment |" ::
        pystr "| --- | --- | --- | --- |" :: job_files.map queueRow
  pyJoin [10] lines

/-! ## External store, events, `process_comment` and the run loops -/

/-- A fetched comment record (the fields `process_comment` reads; `get(...)
or ""` defaults are absorbed into the field values). -/
structure Comment where
  body : PyStr
  login : PyStr
  html_url : PyStr
  issue_url : PyStr
  id : PyStr
  deriving DecidableEq, Repr

/-- The external store: existing reply bodies keyed by `(repo, pr_number)`,
the `jobs/` directory, the `.done` sidecar paths (written only by the
external worker), and a clock supplying fresh modification times. -/
structure St where
  replies : List (PyStr × PyStr × PyStr)
  jobs : List JobFile
  dones : List PyStr
  clock : Nat
  deriving DecidableEq, Repr

/-- Externally visible side effects of one `process_comment` call. -/
inductive Ev where
  | reply (repo pr body : PyStr)
  | jobWrite (name : PyStr)
  | reaction (id : PyStr)
  deriving DecidableEq, Repr

/-- The reply bodies existing on a PR (what `fetch_issue_comment_bodies`
returns; the script's per-run cache is kept in sync with the store by
appending every posted body, so reading the store is exact). -/
def bodiesOf (S : St) (repo pr : PyStr) : List PyStr :=
  (S.replies.filter fun r => decide (r.1 = repo ∧ r.2.1 = pr)).map (·.2.2)

/-- `already_posted`: some existing reply body contains the triggering
comment's URL as a substring. -/
def already_posted (S : St) (cfg : RepoConfig) (pr comment_url : PyStr) :
    Bool :=
  (bodiesOf S cfg.repo pr).any fun b => isSub comment_url b

/-- Common shape of `post_user_notice` / `post_supported_benchmarks` /
`post_queue`: skip when `already_posted`, otherwise POST the reply body. -/
def post_reply (cfg : RepoConfig) (S : St) (pr comment_url body : PyStr) :
    St × List Ev :=
  if already_posted S cfg pr comment_url then (S, [])
  else
    ({ S with replies := S.replies ++ [(cfg.repo, pr, body)] },
     [Ev.reply cfg.repo pr body])

/-- `post_user_notice` from the source. -/
def post_user_notice (cfg : RepoConfig) (S : St) (pr login comment_url : PyStr) :
    St × List Ev :=
  post_reply cfg S pr comment_url (notice_body login comment_url)

/-- `post_supported_benchmarks` from the source. -/
def post_supported_benchmarks (cfg : RepoConfig) (S : St)
    (pr login comment_url : PyStr) (requested : List PyStr) : St × List Ev :=
  post_reply cfg S pr comment_url (supported_body cfg login comment_url requested)

/-- `post_queue` from the source (the `already_posted` check happens before
the job listing, but both are pure here). -/
def post_queue (cfg : RepoConfig) (S : St) (pr login comment_url : PyStr) :
    St × List Ev :=
  post_reply cfg S pr comment_url (queue_body login comment_url S.jobs)

/-- The header block plus invocation lines written into a new job file. -/
def jobContent (cfg : RepoConfig) (pr : PyStr) (c : Comment)
    (benches : List PyStr) : PyStr :=
  pystr "# Automatically created by scrape_comments.py\n# PR: " ++
    prUrl cfg pr ++ pystr "\n# Comment: " ++ c.html_url ++
    pystr "\n# User: " ++ c.login ++ pystr "\n# Body: " ++ c.body ++
    pystr "\n\n" ++ get_benchmark_script cfg pr benches ++ pystr "\n"

/-- The full paths present in the job store. -/
def jobNames (S : St) : List PyStr := S.jobs.map (·.name)

/-- The job-descriptor branch of `process_comment`: skip when the descriptor
file or its `.done` sidecar exists, otherwise write the file and react. -/
def jobStep (cfg : RepoConfig) (S : St) (pr : PyStr) (c : Comment)
    (benches : List PyStr) : St × List Ev :=
  if job_file_name cfg pr c.id ∈ jobNames S then (S, [])
  else if (job_file_name cfg pr c.id ++ pystr ".done") ∈ S.dones then (S, [])
  else
    ({ S with
        jobs := S.jobs ++
          [{ name := job_file_name cfg pr c.id, mtime := S.clock,
             content := jobContent cfg pr c benches }]
        clock := S.clock + 1 },
     Ev.jobWrite (job_file_name cfg pr c.id) ::
       (if c.id ≠ [] then [Ev.reaction c.id] else []))

/-- `process_comment` from the source, as a state transition plus events. -/
def process_comment (cfg : RepoConfig) (S : St) (c : Comment) : St × List Ev :=
  if pr_number_from_url c.issue_url = [] then (S, [])
  else if isQueueBody c.body then
    post_queue cfg S (pr_number_from_url c.issue_url) c.login c.html_url
  else
    match detect_benchmark cfg c.body with
    | none =>
      if startsW (pystr "run benchmark") (lowerS (pyStrip c.body)) then
        if c.login ∉ ALLOWED_USERS then
          post_user_notice cfg S (pr_number_from_url c.issue_url) c.login
            c.html_url
        else
          post_supported_benchmarks cfg S (pr_number_from_url c.issue_url)
            c.login c.html_url ((pySplit c.body).drop 2)
      else (S, [])
    | some benches =>
      if c.login ∉ ALLOWED_USERS then
        post_user_notice cfg S (pr_number_from_url c.issue_url) c.login
          c.html_url
      else jobStep cfg S (pr_number_from_url c.issue_url) c benches

/-- One repository's slice of `main`: process the fetched comments in
order. -/
def processRepo (cfg : RepoConfig) (S : St) : List Comment → St × List Ev
  | [] => (S, [])
  | c :: cs =>
    let r := process_comment cfg S c
    let r2 := processRepo cfg r.1 cs
    (r2.1, r.2 ++ r2.2)

/-- One dispatcher invocation over the configured repositories, each paired
with the comments its window fetch returned. -/
def runAll (S : St) : List (RepoConfig × List Comment) → St × List Ev
  | [] => (S, [])
  | p :: ps =>
    let r := processRepo p.1 S p.2
    let r2 := runAll r.1 ps
    (r2.1, r.2 ++ r2.2)

/-- Arbitrarily many dispatcher invocations in sequence. -/
def runsAll (S : St) : List (List (RepoConfig × List Comment)) → St × List Ev
  | [] => (S, [])
  | ps :: rs =>
    let r := runAll S ps
    let r2 := runsAll r.1 rs
    (r2.1, r.2 ++ r2.2)

/-- Number of job-descriptor creations for the path `f` in an event list. -/
def countJW (f : PyStr) (evs : List Ev) : Nat :=
  evs.countP fun e => decide (e = Ev.jobWrite f)

/-! ## Failure models (`run_gh_api` exit, unparseable responses) -/

/-- Result of the per-repository comment-window fetch: `none` models a
non-success `gh api` call (on which `run_gh_api` calls
`sys.exit(result.returncode)`). -/
abbrev FetchRes := Option (List Comment)

/-- The `main` loop with the window-fetch failure mode of `run_gh_api`
made explicit: a failed call terminates the whole process (`sys.exit`), so
every remaining repository is left unprocessed.  Returns the final store and
whether the run was terminated by such an exit. -/
def mainLoop : List (RepoConfig × FetchRes) → St → St × Bool
  | [], S => (S, false)
  | (_, none) :: _, S => (S, true)
  | (cfg, some cs) :: rest, S => mainLoop rest (processRepo cfg S cs).1

/-- Shape of `loads(output)` on the comment-window response:
it raises (`malformed`), yields a non-list value, or yields a list. -/
inductive WindowResp where
  | malformed
  | nonList
  | ok (cs : List Comment)

/-- Outcome of `fetch_recent_review_comments` after the API call succeeded:
`Except.error code` models `sys.exit(code)`. -/
def fetch_recent_review_comments (r : WindowResp) : Except Nat (List Comment) :=
  match r with
  | .malformed => Except.error 1
  | .nonList => Except.ok []
  | .ok cs => Except.ok cs

/-- One element of the per-PR issue-comments response. -/
inductive BodyItem where
  | withBody (b : PyStr)
  | notDictOrNoStr

/-- Shape of `loads(output)` on the per-PR issue-comments response. -/
inductive BodiesResp where
  | malformed
  | nonList
  | ok (items : List BodyItem)

/-- Outcome of `fetch_issue_comment_bodies` after the API call succeeded:
parse failures are logged and treated as an empty list, never fatal. -/
def fetch_issue_comment_bodies (r : BodiesResp) : List PyStr :=
  match r with
  | .malformed => []
  | .nonList => []
  | .ok items => items.filterMap fun i =>
      match i with
      | .withBody b => some b
      | .notDictOrNoStr => none

/-! ## Basic lemmas about the string model -/

theorem isSpace_lowerC (c : Nat) : isSpace (lowerC c) = isSpace c := by
  unfold isSpace lowerC
  split
  · rename_i h
    apply Bool.eq_iff_iff.mpr
    simp only [Bool.or_eq_true, decide_eq_true_eq]
    omega
  · rfl

theorem lowerC_idem (c : Nat) : lowerC (lowerC c) = lowerC c := by
  by_cases h : 65 ≤ c ∧ c ≤ 90
  · have h1 : lowerC c = c + 32 := if_pos h
    have h2 : lowerC (c + 32) = c + 32 := if_neg (by omega)
    rw [h1, h2]
  · have h1 : lowerC c = c := if_neg h
    rw [h1]
    exact h1

theorem lowerS_idem (s : PyStr) : lowerS (lowerS s) = lowerS s := by
  simp [lowerS, List.map_map, Function.comp_def, lowerC_idem]

theorem dropWs_append_of_allWs {a : PyStr} (h : ∀ x ∈ a, isSpace x)
    (t : PyStr) : dropWs (a ++ t) = dropWs t := by
  induction a with
  | nil => rfl
  | cons c r ih =>
    have hc : isSpace c := h c (by simp)
    simp only [dropWs, List.cons_append, List.dropWhile_cons, hc, if_true]
    exact ih fun x hx => h x (by simp [hx])

theorem dropWs_cons_of_not {c : Nat} (h : ¬ isSpace c) (t : PyStr) :
    dropWs (c :: t) = c :: t := by
  simp [dropWs, List.dropWhile_cons, h]

theorem dropWs_sound (s : PyStr) :
    ∃ a, s = a ++ dropWs s ∧ ∀ x ∈ a, isSpace x := by
  induction s with
  | nil => exact ⟨[], rfl, by simp⟩
  | cons c r ih =>
    by_cases hc : isSpace c
    · obtain ⟨a, ha, hall⟩ := ih
      refine ⟨c :: a, ?_, ?_⟩
      · simp only [dropWs, List.dropWhile_cons, hc, if_true]
        simpa [dropWs] using congrArg (c :: ·) ha
      · intro x hx
        rcases List.mem_cons.1 hx with h | h
        · exact h ▸ hc
        · exact hall x h
    · exact ⟨[], by simp [dropWs_cons_of_not hc], by simp⟩

theorem lowerS_cons_inv {r : PyStr} {k : Nat} {ks : PyStr}
    (h : lowerS r = k :: ks) :
    ∃ c cs, r = c :: cs ∧ lowerC c = k ∧ lowerS cs = ks := by
  cases r with
  | nil => simp [lowerS] at h
  | cons c cs =>
    simp only [lowerS, List.map_cons, List.cons.injEq] at h
    exact ⟨c, cs, rfl, h.1, h.2⟩

theorem stripCI_complete {kw r : PyStr} (t : PyStr)
    (h : lowerS r = lowerS kw) : stripCI kw (r ++ t) = some t := by
  induction kw generalizing r with
  | nil =>
    have : r = [] := by simpa [lowerS] using h
    simp [this, stripCI]
  | cons k ks ih =>
    obtain ⟨c, cs, rfl, hc, hcs⟩ := lowerS_cons_inv (by simpa [lowerS] using h)
    simp [stripCI, hc, ih hcs]

theorem stripCI_sound {kw s t : PyStr} (h : stripCI kw s = some t) :
    ∃ r, s = r ++ t ∧ lowerS r = lowerS kw := by
  induction kw generalizing s with
  | nil =>
    refine ⟨[], ?_, rfl⟩
    simpa [stripCI] using h
  | cons k ks ih =>
    cases s with
    | nil => simp [stripCI] at h
    | cons c cs =>
      by_cases hc : lowerC c = lowerC k
      · simp only [stripCI, hc, if_true] at h
        obtain ⟨r, rfl, hr⟩ := ih h
        refine ⟨c :: r, rfl, ?_⟩
        simp only [lowerS, List.map_cons] at hr ⊢
        rw [hc, hr]
      · simp [stripCI, hc] at h

theorem eatWs1_complete {b : PyStr} (hne : b ≠ [])
    (hall : ∀ x ∈ b, isSpace x) {t : PyStr}
    (ht : dropWs t = t) : eatWs1 (b ++ t) = some t := by
  cases b with
  | nil => exact absurd rfl hne
  | cons c r =>
    have hc : isSpace c := hall c (by simp)
    simp only [List.cons_append, eatWs1, hc, if_true]
    rw [dropWs_append_of_allWs (fun x hx => hall x (by simp [hx])), ht]

theorem eatWs1_sound {s t : PyStr} (h : eatWs1 s = some t) :
    ∃ b, s = b ++ t ∧ b ≠ [] ∧ ∀ x ∈ b, isSpace x := by
  cases s with
  | nil => simp [eatWs1] at h
  | cons c r =>
    by_cases hc : isSpace c
    · simp only [eatWs1, hc, if_true, Option.some.injEq] at h
      obtain ⟨a, ha, hall⟩ := dropWs_sound r
      refine ⟨c :: a, ?_, by simp, ?_⟩
      · subst h
        simpa using congrArg (c :: ·) ha
      · intro x hx
        rcases List.mem_cons.1 hx with h' | h'
        · exact h' ▸ hc
        · exact hall x h'
    · simp [eatWs1, hc] at h

/-! ## Characterization of the trigger regular expressions -/

/-- Spec-side reading of `^\s*run\s+benchmarks\s*$` with `re.IGNORECASE`:
optional whitespace, `run` in any case, at least one whitespace character,
`benchmarks` in any case, optional whitespace — spanning the whole body. -/
def RegexRunBenchmarks (s : PyStr) : Prop :=
  ∃ a r b n c, s = a ++ (r ++ (b ++ (n ++ c))) ∧
    (∀ x ∈ a, isSpace x) ∧ lowerS r = pystr "run" ∧
    b ≠ [] ∧ (∀ x ∈ b, isSpace x) ∧
    lowerS n = pystr "benchmarks" ∧ (∀ x ∈ c, isSpace x)

theorem notSpace_of_lowerS_run {r : PyStr} (h : lowerS r = pystr "run") :
    ∃ c cs, r = c :: cs ∧ isSpace c = false := by
  obtain ⟨c, cs, rfl, hc, -⟩ :=
    @lowerS_cons_inv r 114 [117, 110] (h.trans (by decide))
  refine ⟨c, cs, rfl, ?_⟩
  rw [← isSpace_lowerC, hc]
  decide

theorem notSpace_of_lowerS_benchmark {n : PyStr} {t : PyStr}
    (h : lowerS n = 98 :: t) :
    ∃ c cs, n = c :: cs ∧ isSpace c = false := by
  obtain ⟨c, cs, rfl, hc, -⟩ := lowerS_cons_inv h
  refine ⟨c, cs, rfl, ?_⟩
  rw [← isSpace_lowerC, hc]
  decide

theorem matchRB_complete {a r b n c : PyStr}
    (ha : ∀ x ∈ a, isSpace x) (hr : lowerS r = pystr "run")
    (hb : b ≠ []) (hball : ∀ x ∈ b, isSpace x)
    (hn : lowerS n = pystr "benchmarks") (hc : ∀ x ∈ c, isSpace x) :
    matchRunBenchmarks (a ++ (r ++ (b ++ (n ++ c)))) = true := by
  obtain ⟨r0, r', hre, hr0⟩ := notSpace_of_lowerS_run hr
  obtain ⟨n0, n', hne, hn0⟩ :=
    @notSpace_of_lowerS_benchmark n [101, 110, 99, 104, 109, 97, 114, 107, 115]
      (hn.trans (by decide))
  have h1 : dropWs (a ++ (r ++ (b ++ (n ++ c)))) = r ++ (b ++ (n ++ c)) := by
    rw [dropWs_append_of_allWs ha, hre, List.cons_append,
      dropWs_cons_of_not (by simp [hr0]), ← List.cons_append, ← hre]
  have h2 : stripCI (pystr "run") (r ++ (b ++ (n ++ c))) =
      some (b ++ (n ++ c)) :=
    stripCI_complete _ (by rw [hr]; decide)
  have h3 : eatWs1 (b ++ (n ++ c)) = some (n ++ c) := by
    refine eatWs1_complete hb hball ?_
    rw [hne, List.cons_append, dropWs_cons_of_not (by simp [hn0])]
  have h4 : stripCI (pystr "benchmarks") (n ++ c) = some c :=
    stripCI_complete _ (by rw [hn]; decide)
  simp only [matchRunBenchmarks, h1, h2, h3, h4]
  exact List.all_eq_true.2 hc

theorem matchRB_sound {s : PyStr} (h : matchRunBenchmarks s = true) :
    RegexRunBenchmarks s := by
  unfold matchRunBenchmarks at h
  cases h1 : stripCI (pystr "run") (dropWs s) with
  | none => simp only [h1] at h; exact absurd h (by simp)
  | some s1 =>
    simp only [h1] at h
    cases h2 : eatWs1 s1 with
    | none => simp only [h2] at h; exact absurd h (by simp)
    | some s2 =>
      simp only [h2] at h
      cases h3 : stripCI (pystr "benchmarks") s2 with
      | none => simp only [h3] at h; exact absurd h (by simp)
      | some s3 =>
        simp only [h3] at h
        obtain ⟨a, has, hall⟩ := dropWs_sound s
        obtain ⟨r, hr1, hr2⟩ := stripCI_sound h1
        obtain ⟨b, hb1, hb2, hb3⟩ := eatWs1_sound h2
        obtain ⟨n, hn1, hn2⟩ := stripCI_sound h3
        refine ⟨a, r, b, n, s3, ?_, hall, by rw [hr2]; decide, hb2, hb3,
          by rw [hn2]; decide, fun x hx => List.all_eq_true.1 h x hx⟩
        rw [has, hr1, hb1, hn1]

theorem stripCI_append (k1 k2 s : PyStr) :
    stripCI (k1 ++ k2) s = (stripCI k1 s).bind (stripCI k2) := by
  induction k1 generalizing s with
  | nil => simp [stripCI]
  | cons k ks ih =>
    cases s with
    | nil => simp [stripCI]
    | cons c cs =>
      by_cases hc : lowerC c = lowerC k
      · simp [stripCI, hc, ih]
      · simp [stripCI, hc]

theorem pySplitAux_nospace (X : PyStr) (hns : ∀ x ∈ X, ¬ isSpace x) :
    ∀ acc : PyStr, pySplitAux X acc =
      if acc = [] ∧ X = [] then [] else [acc.reverse ++ X] := by
  induction X with
  | nil =>
    intro acc
    cases acc <;> simp [pySplitAux]
  | cons c r ih =>
    intro acc
    have hc : ¬ isSpace c := hns c (by simp)
    have hr : ∀ x ∈ r, ¬ isSpace x := fun x hx => hns x (by simp [hx])
    simp only [pySplitAux, Bool.not_eq_true] at hc ⊢
    rw [if_neg (by simp [hc]), ih hr (c :: acc),
      if_neg (by simp), if_neg (by simp)]
    simp

/-- The shared decomposition of `"run benchmark " ++ X`. -/
theorem run_benchmark_body_eq (X : PyStr) :
    pystr "run benchmark " ++ X =
      pystr "run" ++ (32 :: (pystr "benchmark" ++ (32 :: X))) := by
  have h : pystr "run benchmark " =
      pystr "run" ++ (32 :: (pystr "benchmark" ++ [32])) := by decide
  rw [h]
  simp

theorem dropWs_run_benchmark (X : PyStr) :
    dropWs (pystr "run benchmark " ++ X) = pystr "run benchmark " ++ X := by
  have h : pystr "run benchmark " ++ X =
      114 :: (pystr "un benchmark " ++ X) := rfl
  rw [h, dropWs_cons_of_not (by decide)]

theorem matchRB_run_benchmark (X : PyStr) :
    matchRunBenchmarks (pystr "run benchmark " ++ X) = false := by
  have h1 : dropWs (pystr "run" ++ (32 :: (pystr "benchmark" ++ (32 :: X)))) =
      pystr "run" ++ (32 :: (pystr "benchmark" ++ (32 :: X))) := by
    rw [← run_benchmark_body_eq]
    exact dropWs_run_benchmark X
  have h2 : stripCI (pystr "run")
      (pystr "run" ++ (32 :: (pystr "benchmark" ++ (32 :: X)))) =
      some (32 :: (pystr "benchmark" ++ (32 :: X))) :=
    stripCI_complete _ rfl
  have h3 : eatWs1 (32 :: (pystr "benchmark" ++ (32 :: X))) =
      some (pystr "benchmark" ++ (32 :: X)) := by
    have hb : pystr "benchmark" ++ (32 :: X) =
        98 :: (pystr "enchmark" ++ (32 :: X)) := rfl
    simp only [eatWs1, show isSpace 32 = true from rfl, if_true]
    rw [hb, dropWs_cons_of_not (by decide)]
  have h4 : stripCI (pystr "benchmarks") (pystr "benchmark" ++ (32 :: X)) =
      none := by
    have hk : pystr "benchmarks" = pystr "benchmark" ++ [115] := by decide
    rw [hk, stripCI_append, stripCI_complete _ rfl]
    simp [stripCI, lowerC]
  rw [run_benchmark_body_eq]
  simp only [matchRunBenchmarks, h1, h2, h3, h4]

theorem runBenchmarkTail_run_benchmark (X : PyStr)
    (hcl : ∀ x ∈ X, isClassChar x) :
    runBenchmarkTail (pystr "run benchmark " ++ X) = some (32 :: X) := by
  have h1 : dropWs (pystr "run" ++ (32 :: (pystr "benchmark" ++ (32 :: X)))) =
      pystr "run" ++ (32 :: (pystr "benchmark" ++ (32 :: X))) := by
    rw [← run_benchmark_body_eq]
    exact dropWs_run_benchmark X
  have h2 : stripCI (pystr "run")
      (pystr "run" ++ (32 :: (pystr "benchmark" ++ (32 :: X)))) =
      some (32 :: (pystr "benchmark" ++ (32 :: X))) :=
    stripCI_complete _ rfl
  have h3 : eatWs1 (32 :: (pystr "benchmark" ++ (32 :: X))) =
      some (pystr "benchmark" ++ (32 :: X)) := by
    have hb : pystr "benchmark" ++ (32 :: X) =
        98 :: (pystr "enchmark" ++ (32 :: X)) := rfl
    simp only [eatWs1, show isSpace 32 = true from rfl, if_true]
    rw [hb, dropWs_cons_of_not (by decide)]
  have h4 : stripCI (pystr "benchmark") (pystr "benchmark" ++ (32 :: X)) =
      some (32 :: X) := stripCI_complete _ rfl
  rw [run_benchmark_body_eq]
  simp only [runBenchmarkTail, h1, h2, h3, h4]
  simp only [List.all_cons, Bool.and_eq_true, List.all_eq_true, if_pos]
  rw [if_pos ⟨rfl, by decide, hcl⟩]

theorem pySplit_run_benchmark (X : PyStr) (hne : X ≠ [])
    (hns : ∀ x ∈ X, ¬ isSpace x) :
    pySplit (pystr "run benchmark " ++ X) =
      [pystr "run", pystr "benchmark", X] := by
  have h : pystr "run benchmark " ++ X =
      114 :: 117 :: 110 :: 32 :: 98 :: 101 :: 110 :: 99 :: 104 :: 109 :: 97 ::
        114 :: 107 :: 32 :: X := rfl
  rw [pySplit, h]
  simp only [pySplitAux, isSpace]
  norm_num
  rw [pySplitAux_nospace X hns []]
  simp [hne]
  constructor <;> decide

theorem pySplit_tail_single (X : PyStr) (hne : X ≠ [])
    (hns : ∀ x ∈ X, ¬ isSpace x) : pySplit (32 :: X) = [X] := by
  rw [pySplit]
  simp only [pySplitAux, show isSpace 32 = true from rfl, if_true,
    if_pos rfl]
  rw [pySplitAux_nospace X hns []]
  simp [hne]

/-- Classification of a well-formed single-name request body: the name is
accepted exactly when it is in one of the two allow-sets. -/
theorem detect_run_benchmark_name (cfg : RepoConfig) (X : PyStr)
    (hne : X ≠ []) (hcl : ∀ x ∈ X, isClassChar x)
    (hns : ∀ x ∈ X, ¬ isSpace x) :
    detect_benchmark cfg (pystr "run benchmark " ++ X) =
      (if X ∈ cfg.allowed_standard ∨ X ∈ cfg.allowed_criterion then
        some [X] else none) := by
  rw [detect_benchmark, matchRB_run_benchmark,
    runBenchmarkTail_run_benchmark X hcl]
  simp only [Bool.false_eq_true, if_false]
  rw [pySplit_tail_single X hne hns]
  by_cases hmem : X ∈ cfg.allowed_standard ∨ X ∈ cfg.allowed_criterion
  · simp [hmem, hne]
  · simp [hmem, hne]

/-! ## Case invariance of the matchers -/

theorem dropWs_lowerS (s : PyStr) : dropWs (lowerS s) = lowerS (dropWs s) := by
  induction s with
  | nil => rfl
  | cons c r ih =>
    by_cases hc : isSpace c
    · simp only [lowerS, List.map_cons, dropWs, List.dropWhile_cons,
        isSpace_lowerC, hc, if_true]
      exact ih
    · simp only [lowerS, List.map_cons, dropWs, List.dropWhile_cons,
        isSpace_lowerC]
      simp [hc]

theorem rstripWs_lowerS (s : PyStr) :
    rstripWs (lowerS s) = lowerS (rstripWs s) := by
  have h1 : (lowerS s).reverse = lowerS s.reverse :=
    (List.map_reverse lowerC s).symm
  have h2 : (lowerS s.reverse).dropWhile isSpace =
      lowerS (s.reverse.dropWhile isSpace) := dropWs_lowerS s.reverse
  calc rstripWs (lowerS s)
      = ((lowerS s.reverse).dropWhile isSpace).reverse := by rw [rstripWs, h1]
    _ = (lowerS (s.reverse.dropWhile isSpace)).reverse := by rw [h2]
    _ = lowerS ((s.reverse.dropWhile isSpace).reverse) :=
        (List.map_reverse lowerC _).symm
    _ = lowerS (rstripWs s) := rfl

theorem pyStrip_lowerS (s : PyStr) : pyStrip (lowerS s) = lowerS (pyStrip s) := by
  simp only [pyStrip, dropWs_lowerS, rstripWs_lowerS]

theorem stripCI_lowerS (kw s : PyStr) :
    stripCI kw (lowerS s) = (stripCI kw s).map lowerS := by
  induction kw generalizing s with
  | nil => simp [stripCI]
  | cons k ks ih =>
    cases s with
    | nil => simp [stripCI, lowerS]
    | cons c cs =>
      simp only [lowerS, List.map_cons, stripCI, lowerC_idem]
      by_cases hc : lowerC c = lowerC k
      · simpa [hc, lowerS] using ih cs
      · simp [hc]

theorem eatWs1_lowerS (s : PyStr) :
    eatWs1 (lowerS s) = (eatWs1 s).map lowerS := by
  cases s with
  | nil => simp [eatWs1, lowerS]
  | cons c r =>
    simp only [lowerS, List.map_cons, eatWs1, isSpace_lowerC]
    by_cases hc : isSpace c
    · simpa [hc, lowerS] using dropWs_lowerS r
    · simp [hc]

theorem isClassChar_lowerC (c : Nat) :
    isClassChar (lowerC c) = isClassChar c := by
  unfold isClassChar
  rw [isSpace_lowerC]
  by_cases hs : isSpace c
  · simp [hs]
  · simp only [hs, Bool.or_false]
    apply Bool.eq_iff_iff.mpr
    simp only [Bool.or_eq_true, Bool.and_eq_true, decide_eq_true_eq]
    unfold lowerC
    split <;> omega

theorem all_isSpace_lowerS (s : PyStr) :
    (lowerS s).all isSpace = s.all isSpace := by
  simp [lowerS, List.all_map, Function.comp_def, isSpace_lowerC]

theorem all_isClassChar_lowerS (s : PyStr) :
    (lowerS s).all isClassChar = s.all isClassChar := by
  simp [lowerS, List.all_map, Function.comp_def, isClassChar_lowerC]

theorem matchRB_lowerS (s : PyStr) :
    matchRunBenchmarks (lowerS s) = matchRunBenchmarks s := by
  unfold matchRunBenchmarks
  cases h1 : stripCI (pystr "run") (dropWs s) with
  | none => rw [dropWs_lowerS, stripCI_lowerS, h1]; rfl
  | some s1 =>
    rw [dropWs_lowerS, stripCI_lowerS, h1]
    simp only [Option.map_some']
    cases h2 : eatWs1 s1 with
    | none => rw [eatWs1_lowerS, h2]; rfl
    | some s2 =>
      rw [eatWs1_lowerS, h2]
      simp only [Option.map_some']
      cases h3 : stripCI (pystr "benchmarks") s2 with
      | none => rw [stripCI_lowerS, h3]; rfl
      | some s3 =>
        rw [stripCI_lowerS, h3]
        simp only [Option.map_some']
        exact all_isSpace_lowerS s3

theorem runBenchmarkTail_lowerS (s : PyStr) :
    runBenchmarkTail (lowerS s) = (runBenchmarkTail s).map lowerS := by
  unfold runBenchmarkTail
  cases h1 : stripCI (pystr "run") (dropWs s) with
  | none => rw [dropWs_lowerS, stripCI_lowerS, h1]; rfl
  | some s1 =>
    rw [dropWs_lowerS, stripCI_lowerS, h1]
    simp only [Option.map_some']
    cases h2 : eatWs1 s1 with
    | none => rw [eatWs1_lowerS, h2]; rfl
    | some s2 =>
      rw [eatWs1_lowerS, h2]
      simp only [Option.map_some']
      cases h3 : stripCI (pystr "benchmark") s2 with
      | none => rw [stripCI_lowerS, h3]; rfl
      | some s3 =>
        rw [stripCI_lowerS, h3]
        simp only [Option.map_some']
        cases s3 with
        | nil => rfl
        | cons w rest =>
          have hall2 : (lowerC w :: List.map lowerC rest).all isClassChar =
              (w :: rest).all isClassChar := by
            simpa [lowerS] using all_isClassChar_lowerS (w :: rest)
          simp only [lowerS, List.map_cons, isSpace_lowerC]
          by_cases hw : isSpace w
          · by_cases hall : (w :: rest).all isClassChar = true
            · rw [if_pos ⟨hw, by rw [hall2]; exact hall⟩,
                if_pos ⟨hw, hall⟩]
              simp [lowerS]
            · rw [if_neg (fun hcon => hall (by rw [← hall2]; exact hcon.2)),
                if_neg (by simp [hall])]
              rfl
          · rw [if_neg (by simp [hw]), if_neg (by simp [hw])]
            rfl

/-! ## Disambiguation: a detected benchmark trigger is not the queue phrase -/

theorem dropWhile_append_singleton {p : Nat → Bool} {c : Nat}
    (hc : p c = false) (l : PyStr) :
    (l ++ [c]).dropWhile p = l.dropWhile p ++ [c] := by
  induction l with
  | nil => simp [List.dropWhile_cons, hc]
  | cons a l' ih =>
    by_cases ha : p a
    · simpa [List.dropWhile_cons, ha] using ih
    · simp [List.dropWhile_cons, ha]

theorem rstripWs_cons_of_not {c : Nat} (hc : ¬ isSpace c) (t : PyStr) :
    rstripWs (c :: t) = c :: rstripWs t := by
  simp only [rstripWs, List.reverse_cons,
    dropWhile_append_singleton (by simpa using hc), List.reverse_append]
  rfl

theorem queue_false_of_stripCI_run {body s1 : PyStr}
    (h : stripCI (pystr "run") (dropWs body) = some s1) :
    isQueueBody body = false := by
  obtain ⟨r, hr1, hr2⟩ := stripCI_sound h
  obtain ⟨c, cs, hce, hc114, -⟩ :=
    @lowerS_cons_inv r 114 [117, 110] (hr2.trans (by decide))
  have hc114' : lowerC c = 114 := hc114
  have hcs : ¬ isSpace c := by
    rw [← isSpace_lowerC, hc114']
    decide
  have hdrop : dropWs body = c :: (cs ++ s1) := by
    rw [hr1, hce]
    rfl
  have hstrip : pyStrip body = c :: rstripWs (cs ++ s1) := by
    rw [pyStrip, hdrop, rstripWs_cons_of_not hcs]
  have hlow : lowerS (pyStrip body) = 114 :: lowerS (rstripWs (cs ++ s1)) := by
    rw [hstrip]
    simp [lowerS, hc114']
  simp only [isQueueBody, hlow]
  apply decide_eq_false
  intro hcon
  have h115 : pystr "show benchmark queue" =
      115 :: pystr "how benchmark queue" := rfl
  rw [h115] at hcon
  injection hcon with hhead _
  exact absurd hhead (by decide)

theorem detect_some_stripCI_run {cfg : RepoConfig} {body : PyStr}
    {ns : List PyStr} (h : detect_benchmark cfg body = some ns) :
    ∃ s1, stripCI (pystr "run") (dropWs body) = some s1 := by
  cases h1 : stripCI (pystr "run") (dropWs body) with
  | some s1 => exact ⟨s1, rfl⟩
  | none =>
    have hm : matchRunBenchmarks body = false := by
      unfold matchRunBenchmarks
      simp [h1]
    have ht : runBenchmarkTail body = none := by
      unfold runBenchmarkTail
      simp [h1]
    rw [detect_benchmark, hm, ht] at h
    simp at h

theorem detect_some_not_queue {cfg : RepoConfig} {body : PyStr}
    {ns : List PyStr} (h : detect_benchmark cfg body = some ns) :
    isQueueBody body = false := by
  obtain ⟨s1, h1⟩ := detect_some_stripCI_run h
  exact queue_false_of_stripCI_run h1

/-! ## The store grows monotonically and absorbs repeated processing -/

/-- Store inclusion: every reply, job path and done marker of `S` is present
in `T`. -/
def StLe (S T : St) : Prop :=
  (∀ r ∈ S.replies, r ∈ T.replies) ∧ (∀ n ∈ jobNames S, n ∈ jobNames T) ∧
    (∀ d ∈ S.dones, d ∈ T.dones)

theorem StLe_refl (S : St) : StLe S S :=
  ⟨fun _ h => h, fun _ h => h, fun _ h => h⟩

theorem StLe_trans {S T U : St} (h1 : StLe S T) (h2 : StLe T U) : StLe S U :=
  ⟨fun r hr => h2.1 r (h1.1 r hr), fun n hn => h2.2.1 n (h1.2.1 n hn),
   fun d hd => h2.2.2 d (h1.2.2 d hd)⟩

theorem mem_bodiesOf {S : St} {repo pr b : PyStr}
    (h : (repo, pr, b) ∈ S.replies) : b ∈ bodiesOf S repo pr := by
  refine List.mem_map.2 ⟨(repo, pr, b), List.mem_filter.2 ⟨h, ?_⟩, rfl⟩
  exact decide_eq_true ⟨rfl, rfl⟩

theorem bodiesOf_mono {S T : St} {repo pr b : PyStr}
    (hle : ∀ r ∈ S.replies, r ∈ T.replies)
    (h : b ∈ bodiesOf S repo pr) : b ∈ bodiesOf T repo pr := by
  obtain ⟨rec, hrec, hb⟩ := List.mem_map.1 h
  obtain ⟨hmem, hpred⟩ := List.mem_filter.1 hrec
  exact hb ▸ List.mem_map.2 ⟨rec, List.mem_filter.2 ⟨hle rec hmem, hpred⟩, rfl⟩

theorem already_posted_mono {S T : St} {cfg : RepoConfig} {pr url : PyStr}
    (hle : ∀ r ∈ S.replies, r ∈ T.replies)
    (h : already_posted S cfg pr url = true) :
    already_posted T cfg pr url = true := by
  obtain ⟨b, hb, hsub⟩ := List.any_eq_true.1 h
  exact List.any_eq_true.2 ⟨b, bodiesOf_mono hle hb, hsub⟩

theorem isSub_of_eq {u : PyStr} (a b : PyStr) {h : PyStr}
    (he : h = a ++ (u ++ b)) : isSub u h = true := by
  apply decide_eq_true
  exact ⟨a, b, by rw [he]; simp⟩

theorem isSub_append_right {u p : PyStr} (t : PyStr)
    (h : isSub u p = true) : isSub u (p ++ t) = true := by
  obtain ⟨s1, t1, heq⟩ := of_decide_eq_true h
  apply decide_eq_true
  exact ⟨s1, t1 ++ t, by rw [← heq]; simp⟩

theorem isSub_url_notice (login url : PyStr) :
    isSub url (notice_body login url) = true :=
  isSub_of_eq (pystr "🤖 Hi @" ++ login ++ pystr ", thanks for the request (")
    (pystr "). " ++ SCRIPT_MARKDOWN_LINK ++
      pystr " only responds to whitelisted users. Allowed users: " ++
      allowed_users_markdown ++ pystr ".")
    (by simp [notice_body, List.append_assoc])

theorem isSub_url_supported (cfg : RepoConfig) (login url : PyStr)
    (requested : List PyStr) :
    isSub url (supported_body cfg login url requested) = true := by
  have base : isSub url
      (pystr "🤖 Hi @" ++ login ++ pystr ", thanks for the request (" ++
        url) = true :=
    isSub_of_eq (pystr "🤖 Hi @" ++ login ++ pystr ", thanks for the request (")
      [] (by simp)
  unfold supported_body
  apply isSub_append_right
  apply isSub_append_right
  apply isSub_append_right
  apply isSub_append_right
  apply isSub_append_right
  apply isSub_append_right
  apply isSub_append_right
  apply isSub_append_right
  apply isSub_append_right
  exact base

theorem pyJoin_cons_ex (sep p : PyStr) (ps : List PyStr) :
    ∃ t, pyJoin sep (p :: ps) = p ++ t := by
  cases ps with
  | nil => exact ⟨[], by simp [pyJoin]⟩
  | cons q r => exact ⟨sep ++ pyJoin sep (q :: r), by simp [pyJoin]⟩

theorem isSub_url_queue (login url : PyStr) (jobs : List JobFile) :
    isSub url (queue_body login url jobs) = true := by
  have hhead : isSub url
      (pystr "🤖 Hi @" ++ login ++
        pystr ", you asked to view the benchmark queue (" ++ url ++
        pystr ").") = true :=
    isSub_of_eq
      (pystr "🤖 Hi @" ++ login ++
        pystr ", you asked to view the benchmark queue (")
      (pystr ").") (by simp [List.append_assoc])
  have hshape : ∃ ls, queue_body login url jobs =
      pyJoin [10]
        ((pystr "🤖 Hi @" ++ login ++
          pystr ", you asked to view the benchmark queue (" ++ url ++
          pystr ").") :: ls) := by
    by_cases hjf : list_job_files jobs = []
    · exact ⟨[[], pystr "No pending jobs in `jobs/`."],
        by simp only [queue_body]; rw [if_pos hjf]⟩
    · exact ⟨[] :: pystr "| Job | User | Benchmarks | Comment |" ::
        pystr "| --- | --- | --- | --- |" ::
        (list_job_files jobs).map queueRow,
        by simp only [queue_body]; rw [if_neg hjf]⟩
  obtain ⟨ls, hls⟩ := hshape
  obtain ⟨t, ht⟩ := pyJoin_cons_ex [10]
    (pystr "🤖 Hi @" ++ login ++
      pystr ", you asked to view the benchmark queue (" ++ url ++
      pystr ").") ls
  rw [hls, ht]
  exact isSub_append_right t hhead

theorem post_reply_mono (cfg : RepoConfig) (S : St) (pr url body : PyStr) :
    StLe S (post_reply cfg S pr url body).1 := by
  unfold post_reply
  by_cases h : already_posted S cfg pr url = true
  · rw [if_pos h]
    exact StLe_refl S
  · rw [if_neg h]
    exact ⟨fun r hr => by simp [hr], fun n hn => hn, fun d hd => hd⟩

theorem post_reply_absorb {cfg : RepoConfig} {S S' : St} {pr url body : PyStr}
    (hsub : isSub url body = true)
    (hle : StLe (post_reply cfg S pr url body).1 S') (body' : PyStr) :
    post_reply cfg S' pr url body' = (S', []) := by
  have hap : already_posted S' cfg pr url = true := by
    by_cases h : already_posted S cfg pr url = true
    · refine already_posted_mono (fun r hr => hle.1 r ?_) h
      unfold post_reply
      simp [h, hr]
    · have hmem : (cfg.repo, pr, body) ∈ (post_reply cfg S pr url body).1.replies := by
        unfold post_reply
        simp [h]
      refine List.any_eq_true.2 ⟨body, ?_, hsub⟩
      exact mem_bodiesOf (hle.1 _ hmem)
  unfold post_reply
  simp [hap]

theorem jobStep_mono (cfg : RepoConfig) (S : St) (pr : PyStr) (c : Comment)
    (benches : List PyStr) : StLe S (jobStep cfg S pr c benches).1 := by
  unfold jobStep
  by_cases h1 : job_file_name cfg pr c.id ∈ jobNames S
  · rw [if_pos h1]
    exact StLe_refl S
  · rw [if_neg h1]
    by_cases h2 : (job_file_name cfg pr c.id ++ pystr ".done") ∈ S.dones
    · rw [if_pos h2]
      exact StLe_refl S
    · rw [if_neg h2]
      refine ⟨fun r hr => hr, fun n hn => ?_, fun d hd => hd⟩
      simp only [jobNames, List.map_append]
      exact List.mem_append_left _ hn

theorem process_comment_mono (cfg : RepoConfig) (S : St) (c : Comment) :
    StLe S (process_comment cfg S c).1 := by
  unfold process_comment
  by_cases hpr : pr_number_from_url c.issue_url = []
  · rw [if_pos hpr]
    exact StLe_refl S
  · rw [if_neg hpr]
    by_cases hq : isQueueBody c.body = true
    · rw [if_pos hq]
      exact post_reply_mono cfg S _ _ _
    · rw [if_neg hq]
      cases hd : detect_benchmark cfg c.body with
      | none =>
        dsimp only
        by_cases hs :
            startsW (pystr "run benchmark") (lowerS (pyStrip c.body)) = true
        · rw [if_pos hs]
          by_cases hl : c.login ∉ ALLOWED_USERS
          · rw [if_pos hl]
            exact post_reply_mono cfg S _ _ _
          · rw [if_neg hl]
            exact post_reply_mono cfg S _ _ _
        · rw [if_neg hs]
          exact StLe_refl S
      | some benches =>
        dsimp only
        by_cases hl : c.login ∉ ALLOWED_USERS
        · rw [if_pos hl]
          exact post_reply_mono cfg S _ _ _
        · rw [if_neg hl]
          exact jobStep_mono cfg S _ c benches

theorem jobStep_absorb {cfg : RepoConfig} {S S' : St} {pr : PyStr}
    {c : Comment} {benches : List PyStr}
    (hle : StLe (jobStep cfg S pr c benches).1 S') (benches' : List PyStr) :
    jobStep cfg S' pr c benches' = (S', []) := by
  unfold jobStep at hle ⊢
  by_cases h1 : job_file_name cfg pr c.id ∈ jobNames S
  · rw [if_pos h1] at hle
    rw [if_pos (hle.2.1 _ h1)]
  · rw [if_neg h1] at hle
    by_cases h2 : (job_file_name cfg pr c.id ++ pystr ".done") ∈ S.dones
    · rw [if_pos h2] at hle
      by_cases h1' : job_file_name cfg pr c.id ∈ jobNames S'
      · rw [if_pos h1']
      · rw [if_neg h1', if_pos (hle.2.2 _ h2)]
    · rw [if_neg h2] at hle
      have hmem : job_file_name cfg pr c.id ∈ jobNames S' := by
        refine hle.2.1 _ ?_
        simp [jobNames]
      rw [if_pos hmem]

theorem process_comment_absorb {cfg : RepoConfig} {S S' : St} {c : Comment}
    (hle : StLe (process_comment cfg S c).1 S') :
    process_comment cfg S' c = (S', []) := by
  unfold process_comment at hle ⊢
  by_cases hpr : pr_number_from_url c.issue_url = []
  · rw [if_pos hpr]
  · rw [if_neg hpr] at hle ⊢
    by_cases hq : isQueueBody c.body = true
    · rw [if_pos hq] at hle ⊢
      exact post_reply_absorb (isSub_url_queue c.login c.html_url S.jobs)
        hle _
    · rw [if_neg hq] at hle ⊢
      cases hd : detect_benchmark cfg c.body with
      | none =>
        rw [hd] at hle
        dsimp only at hle ⊢
        by_cases hs :
            startsW (pystr "run benchmark") (lowerS (pyStrip c.body)) = true
        · rw [if_pos hs] at hle ⊢
          by_cases hl : c.login ∉ ALLOWED_USERS
          · rw [if_pos hl] at hle ⊢
            exact post_reply_absorb (isSub_url_notice c.login c.html_url)
              hle _
          · rw [if_neg hl] at hle ⊢
            exact post_reply_absorb
              (isSub_url_supported cfg c.login c.html_url
                ((pySplit c.body).drop 2)) hle _
        · rw [if_neg hs]
      | some benches =>
        rw [hd] at hle
        dsimp only at hle ⊢
        by_cases hl : c.login ∉ ALLOWED_USERS
        · rw [if_pos hl] at hle ⊢
          exact post_reply_absorb (isSub_url_notice c.login c.html_url)
            hle _
        · rw [if_neg hl] at hle ⊢
          exact jobStep_absorb hle benches

theorem processRepo_mono (cfg : RepoConfig) (S : St) (cs : List Comment) :
    StLe S (processRepo cfg S cs).1 := by
  induction cs generalizing S with
  | nil => exact StLe_refl S
  | cons c cs ih =>
    simp only [processRepo]
    exact StLe_trans (process_comment_mono cfg S c) (ih _)

theorem runAll_mono (S : St) (ps : List (RepoConfig × List Comment)) :
    StLe S (runAll S ps).1 := by
  induction ps generalizing S with
  | nil => exact StLe_refl S
  | cons p ps ih =>
    simp only [runAll]
    exact StLe_trans (processRepo_mono p.1 S p.2) (ih _)

theorem runsAll_mono (S : St) (rs : List (List (RepoConfig × List Comment))) :
    StLe S (runsAll S rs).1 := by
  induction rs generalizing S with
  | nil => exact StLe_refl S
  | cons ps rs ih =>
    simp only [runsAll]
    exact StLe_trans (runAll_mono S ps) (ih _)

theorem processRepo_stable {cfg : RepoConfig} {S : St} {cs : List Comment}
    (h : ∀ c ∈ cs, process_comment cfg S c = (S, [])) :
    processRepo cfg S cs = (S, []) := by
  induction cs with
  | nil => rfl
  | cons c cs ih =>
    simp only [processRepo, h c (by simp)]
    simpa using ih fun c' hc' => h c' (by simp [hc'])

theorem processRepo_absorb {cfg : RepoConfig} {S S' : St} {cs : List Comment}
    (hle : StLe (processRepo cfg S cs).1 S') :
    ∀ c ∈ cs, process_comment cfg S' c = (S', []) := by
  induction cs generalizing S with
  | nil => intro c hc; exact absurd hc (List.not_mem_nil c)
  | cons c0 cs ih =>
    have hred : (processRepo cfg S (c0 :: cs)).1 =
        (processRepo cfg (process_comment cfg S c0).1 cs).1 := by
      simp only [processRepo]
    rw [hred] at hle
    intro c hc
    rcases List.mem_cons.1 hc with h | h
    · subst h
      exact process_comment_absorb
        (StLe_trans (processRepo_mono cfg _ cs) hle)
    · exact ih hle c h

theorem runAll_absorb {S S' : St} {ps : List (RepoConfig × List Comment)}
    (hle : StLe (runAll S ps).1 S') :
    ∀ p ∈ ps, ∀ c ∈ p.2, process_comment p.1 S' c = (S', []) := by
  induction ps generalizing S with
  | nil => intro p hp; exact absurd hp (List.not_mem_nil p)
  | cons p0 ps ih =>
    have hred : (runAll S (p0 :: ps)).1 =
        (runAll (processRepo p0.1 S p0.2).1 ps).1 := by
      simp only [runAll]
    rw [hred] at hle
    intro p hp
    rcases List.mem_cons.1 hp with h | h
    · subst h
      exact processRepo_absorb (StLe_trans (runAll_mono _ ps) hle)
    · exact ih hle p h

theorem runAll_stable {S : St} {ps : List (RepoConfig × List Comment)}
    (h : ∀ p ∈ ps, ∀ c ∈ p.2, process_comment p.1 S c = (S, [])) :
    runAll S ps = (S, []) := by
  induction ps with
  | nil => rfl
  | cons p ps ih =>
    simp only [runAll, processRepo_stable (h p (by simp))]
    simpa using ih fun p' hp' => h p' (by simp [hp'])

theorem runAll_idem (S0 : St) (ps : List (RepoConfig × List Comment)) :
    runAll (runAll S0 ps).1 ps = ((runAll S0 ps).1, []) :=
  runAll_stable (runAll_absorb (StLe_refl _))

/-! ## At most one job-descriptor creation per path -/

/-- Indicator: is the path `f` present in the job store. -/
def jb (f : PyStr) (S : St) : Nat := if f ∈ jobNames S then 1 else 0

theorem jb_le_one (f : PyStr) (S : St) : jb f S ≤ 1 := by
  unfold jb
  split <;> omega

theorem post_reply_jobs (cfg : RepoConfig) (S : St) (pr url body : PyStr) :
    (post_reply cfg S pr url body).1.jobs = S.jobs := by
  unfold post_reply
  split <;> rfl

theorem countJW_post_reply (f : PyStr) (cfg : RepoConfig) (S : St)
    (pr url body : PyStr) :
    countJW f (post_reply cfg S pr url body).2 = 0 := by
  unfold post_reply
  split
  · rfl
  · simp [countJW]

theorem jobStep_count (f : PyStr) (cfg : RepoConfig) (S : St) (pr : PyStr)
    (c : Comment) (benches : List PyStr) :
    countJW f (jobStep cfg S pr c benches).2 + jb f S ≤
      jb f (jobStep cfg S pr c benches).1 := by
  unfold jobStep
  by_cases h1 : job_file_name cfg pr c.id ∈ jobNames S
  · rw [if_pos h1]
    simp [countJW]
  · rw [if_neg h1]
    by_cases h2 : (job_file_name cfg pr c.id ++ pystr ".done") ∈ S.dones
    · rw [if_pos h2]
      simp [countJW]
    · rw [if_neg h2]
      have hjn : jobNames
          { S with
            jobs := S.jobs ++
              [{ name := job_file_name cfg pr c.id, mtime := S.clock,
                 content := jobContent cfg pr c benches }]
            clock := S.clock + 1 } =
          jobNames S ++ [job_file_name cfg pr c.id] := by
        simp [jobNames]
      have hcr : countJW f
          (Ev.jobWrite (job_file_name cfg pr c.id) ::
            (if c.id ≠ [] then [Ev.reaction c.id] else [])) =
          if f = job_file_name cfg pr c.id then 1 else 0 := by
        by_cases hid : c.id ≠ [] <;>
          by_cases hf : f = job_file_name cfg pr c.id <;>
            simp [countJW, hid, hf, List.countP_cons, eq_comm]
      by_cases hf : f = job_file_name cfg pr c.id
      · subst hf
        simp only [hcr, if_pos rfl, jb, hjn]
        rw [if_neg h1]
        simp
      · simp only [hcr, if_neg hf, jb, hjn]
        by_cases hmem : f ∈ jobNames S
        · rw [if_pos hmem, if_pos (by simp [hmem])]
        · rw [if_neg hmem, if_neg (by simp [hmem, hf])]

theorem jb_post_reply (f : PyStr) (cfg : RepoConfig) (S : St)
    (pr url body : PyStr) : jb f (post_reply cfg S pr url body).1 = jb f S := by
  unfold jb jobNames
  rw [post_reply_jobs]

theorem process_comment_count (f : PyStr) (cfg : RepoConfig) (S : St)
    (c : Comment) :
    countJW f (process_comment cfg S c).2 + jb f S ≤
      jb f (process_comment cfg S c).1 := by
  unfold process_comment
  by_cases hpr : pr_number_from_url c.issue_url = []
  · rw [if_pos hpr]
    simp [countJW]
  · rw [if_neg hpr]
    by_cases hq : isQueueBody c.body = true
    · rw [if_pos hq]
      rw [post_queue, countJW_post_reply, jb_post_reply]
      omega
    · rw [if_neg hq]
      cases hd : detect_benchmark cfg c.body with
      | none =>
        dsimp only
        by_cases hs :
            startsW (pystr "run benchmark") (lowerS (pyStrip c.body)) = true
        · rw [if_pos hs]
          by_cases hl : c.login ∉ ALLOWED_USERS
          · rw [if_pos hl, post_user_notice, countJW_post_reply,
              jb_post_reply]
            omega
          · rw [if_neg hl, post_supported_benchmarks, countJW_post_reply,
              jb_post_reply]
            omega
        · rw [if_neg hs]
          simp [countJW]
      | some benches =>
        dsimp only
        by_cases hl : c.login ∉ ALLOWED_USERS
        · rw [if_pos hl, post_user_notice, countJW_post_reply,
            jb_post_reply]
          omega
        · rw [if_neg hl]
          exact jobStep_count f cfg S _ c benches

theorem processRepo_count (f : PyStr) (cfg : RepoConfig) (S : St)
    (cs : List Comment) :
    countJW f (processRepo cfg S cs).2 + jb f S ≤
      jb f (processRepo cfg S cs).1 := by
  induction cs generalizing S with
  | nil => simp [processRepo, countJW]
  | cons c cs ih =>
    simp only [processRepo, countJW, List.countP_append]
    have h1 := process_comment_count f cfg S c
    have h2 := ih (process_comment cfg S c).1
    unfold countJW at h1 h2
    omega

theorem runAll_count (f : PyStr) (S : St)
    (ps : List (RepoConfig × List Comment)) :
    countJW f (runAll S ps).2 + jb f S ≤ jb f (runAll S ps).1 := by
  induction ps generalizing S with
  | nil => simp [runAll, countJW]
  | cons p ps ih =>
    simp only [runAll, countJW, List.countP_append]
    have h1 := processRepo_count f p.1 S p.2
    have h2 := ih (processRepo p.1 S p.2).1
    unfold countJW at h1 h2
    omega

theorem runsAll_count (f : PyStr) (S : St)
    (rs : List (List (RepoConfig × List Comment))) :
    countJW f (runsAll S rs).2 + jb f S ≤ jb f (runsAll S rs).1 := by
  induction rs generalizing S with
  | nil => simp [runsAll, countJW]
  | cons ps rs ih =>
    simp only [runsAll, countJW, List.countP_append]
    have h1 := runAll_count f S ps
    have h2 := ih (runAll S ps).1
    unfold countJW at h1 h2
    omega

theorem runsAll_at_most_one (f : PyStr) (S : St)
    (rs : List (List (RepoConfig × List Comment))) :
    countJW f (runsAll S rs).2 ≤ 1 := by
  have h1 := runsAll_count f S rs
  have h2 := jb_le_one f (runsAll S rs).1
  omega

/-! ## Branch behaviour of `process_comment` -/

theorem process_comment_unauth {cfg : RepoConfig} {S : St} {c : Comment}
    {ns : List PyStr} (hd : detect_benchmark cfg c.body = some ns)
    (hpr : pr_number_from_url c.issue_url ≠ [])
    (hl : c.login ∉ ALLOWED_USERS) :
    process_comment cfg S c =
      post_user_notice cfg S (pr_number_from_url c.issue_url) c.login
        c.html_url := by
  unfold process_comment
  rw [if_neg hpr, if_neg (by simp [detect_some_not_queue hd]), hd]
  dsimp only
  rw [if_pos hl]

theorem process_comment_authorized {cfg : RepoConfig} {S : St} {c : Comment}
    {ns : List PyStr} (hd : detect_benchmark cfg c.body = some ns)
    (hpr : pr_number_from_url c.issue_url ≠ [])
    (hl : c.login ∈ ALLOWED_USERS) :
    process_comment cfg S c =
      jobStep cfg S (pr_number_from_url c.issue_url) c ns := by
  unfold process_comment
  rw [if_neg hpr, if_neg (by simp [detect_some_not_queue hd]), hd]
  dsimp only
  rw [if_neg (by simp [hl])]

theorem jobStep_skip {cfg : RepoConfig} {S : St} {pr : PyStr} {c : Comment}
    {benches : List PyStr}
    (hex : job_file_name cfg pr c.id ∈ jobNames S ∨
      (job_file_name cfg pr c.id ++ pystr ".done") ∈ S.dones) :
    jobStep cfg S pr c benches = (S, []) := by
  unfold jobStep
  rcases hex with h | h
  · rw [if_pos h]
  · by_cases h1 : job_file_name cfg pr c.id ∈ jobNames S
    · rw [if_pos h1]
    · rw [if_neg h1, if_pos h]

theorem detect_bare_run_benchmark (cfg : RepoConfig) :
    detect_benchmark cfg (pystr "run benchmark") = none := by
  have h1 : matchRunBenchmarks (pystr "run benchmark") = false := by decide
  have h2 : runBenchmarkTail (pystr "run benchmark") = none := by decide
  simp [detect_benchmark, h1, h2]

theorem process_comment_bare {cfg : RepoConfig} {S : St} {c : Comment}
    (hb : c.body = pystr "run benchmark")
    (hpr : pr_number_from_url c.issue_url ≠ []) :
    process_comment cfg S c =
      (if c.login ∉ ALLOWED_USERS then
        post_user_notice cfg S (pr_number_from_url c.issue_url) c.login
          c.html_url
      else
        post_supported_benchmarks cfg S (pr_number_from_url c.issue_url)
          c.login c.html_url []) := by
  unfold process_comment
  rw [hb, if_neg hpr, if_neg (by decide), detect_bare_run_benchmark cfg]
  dsimp only
  rw [if_pos (by decide),
    show (pySplit (pystr "run benchmark")).drop 2 = [] by decide]

/-! ## Splitting a joined string recovers the lines -/

theorem splitSep_cons_ex (sep : Nat) (s : PyStr) :
    ∃ h t, splitSep sep s = h :: t := by
  cases s with
  | nil => exact ⟨[], [], rfl⟩
  | cons c r =>
    by_cases hc : c = sep
    · exact ⟨[], splitSep sep r, by simp [splitSep, hc]⟩
    · obtain ⟨h, t, hht⟩ := splitSep_cons_ex sep r
      exact ⟨c :: h, t, by simp [splitSep, hc, hht]⟩

theorem splitSep_no_sep {sep : Nat} {p : PyStr} (hp : sep ∉ p) :
    splitSep sep p = [p] := by
  induction p with
  | nil => rfl
  | cons a p' ih =>
    have ha : a ≠ sep := fun h => hp (by simp [h])
    have hp' : sep ∉ p' := fun h => hp (by simp [h])
    simp [splitSep, ha, ih hp']

theorem splitSep_append_cons {sep : Nat} {p : PyStr} (hp : sep ∉ p)
    (t : PyStr) : splitSep sep (p ++ sep :: t) = p :: splitSep sep t := by
  induction p with
  | nil => simp [splitSep]
  | cons a p' ih =>
    have ha : a ≠ sep := fun h => hp (by simp [h])
    have hp' : sep ∉ p' := fun h => hp (by simp [h])
    simp [splitSep, ha, ih hp']

theorem splitSep_pyJoin {sep : Nat} {parts : List PyStr} (hne : parts ≠ [])
    (h : ∀ p ∈ parts, sep ∉ p) :
    splitSep sep (pyJoin [sep] parts) = parts := by
  induction parts with
  | nil => exact absurd rfl hne
  | cons p rest ih =>
    cases rest with
    | nil => exact splitSep_no_sep (h p (by simp))
    | cons q r =>
      have hjoin : pyJoin [sep] (p :: q :: r) =
          p ++ sep :: pyJoin [sep] (q :: r) := by
        simp [pyJoin]
      rw [hjoin, splitSep_append_cons (h p (by simp)),
        ih (by simp) fun x hx => h x (by simp [hx])]

theorem mem_pyJoin {x : Nat} {sep : PyStr} {parts : List PyStr}
    (hx : x ∈ pyJoin sep parts) : x ∈ sep ∨ ∃ p ∈ parts, x ∈ p := by
  induction parts with
  | nil => simp [pyJoin] at hx
  | cons p rest ih =>
    cases rest with
    | nil =>
      right
      exact ⟨p, by simp, hx⟩
    | cons q r =>
      simp only [pyJoin, List.append_assoc, List.mem_append] at hx
      rcases hx with h | h | h
      · exact Or.inr ⟨p, by simp, h⟩
      · exact Or.inl h
      · rcases ih h with h' | ⟨p', hp', hx'⟩
        · exact Or.inl h'
        · exact Or.inr ⟨p', by simp [hp'], hx'⟩

/-! ## The stable insertion sort used to model Python `sorted` -/

theorem insertLe_perm (le : α → α → Bool) (x : α) (l : List α) :
    List.Perm (insertLe le x l) (x :: l) := by
  induction l with
  | nil => exact List.Perm.refl _
  | cons y ys ih =>
    unfold insertLe
    by_cases hc : le y x = true
    · rw [if_pos hc]
      exact (ih.cons y).trans (List.Perm.swap x y ys)
    · rw [if_neg hc]

theorem sortLe_perm (le : α → α → Bool) (l : List α) :
    List.Perm (sortLe le l) l := by
  have haux : ∀ (l acc : List α),
      List.Perm (l.foldl (fun acc x => insertLe le x acc) acc) (acc ++ l) := by
    intro l
    induction l with
    | nil =>
      intro acc
      simp only [List.foldl_nil, List.append_nil]
      exact List.Perm.refl _
    | cons x r ih =>
      intro acc
      have h1 : (x :: r).foldl (fun acc x => insertLe le x acc) acc =
          r.foldl (fun acc x => insertLe le x acc) (insertLe le x acc) := rfl
      rw [h1]
      refine (ih _).trans ?_
      refine (((insertLe_perm le x acc).append_right r).trans ?_)
      exact List.perm_middle.symm
  exact haux l []

theorem insertLe_sorted_mtime {x : JobFile} {l : List JobFile}
    (h : List.Pairwise (fun a b => a.mtime ≤ b.mtime) l) :
    List.Pairwise (fun a b => a.mtime ≤ b.mtime)
      (insertLe (fun a b => a.mtime ≤ b.mtime) x l) := by
  induction l with
  | nil =>
    unfold insertLe
    simp
  | cons y ys ih =>
    rcases List.pairwise_cons.1 h with ⟨hy, hys⟩
    unfold insertLe
    by_cases hc : (decide (y.mtime ≤ x.mtime)) = true
    · rw [if_pos hc]
      refine List.pairwise_cons.2 ⟨?_, ih hys⟩
      intro z hz
      have hz' := (insertLe_perm (fun a b => a.mtime ≤ b.mtime) x ys).mem_iff.1 hz
      rcases List.mem_cons.1 hz' with h' | h'
      · subst h'
        exact of_decide_eq_true hc
      · exact hy z h'
    · rw [if_neg hc]
      have hxy : x.mtime ≤ y.mtime := by
        have := of_decide_eq_false (Bool.of_not_eq_true hc)
        omega
      refine List.pairwise_cons.2 ⟨?_, h⟩
      intro z hz
      rcases List.mem_cons.1 hz with h' | h'
      · subst h'
        exact hxy
      · exact le_trans hxy (hy z h')

theorem sortLe_sorted_mtime (l : List JobFile) :
    List.Pairwise (fun a b => a.mtime ≤ b.mtime)
      (sortLe (fun a b => a.mtime ≤ b.mtime) l) := by
  have haux : ∀ (l acc : List JobFile),
      List.Pairwise (fun a b => a.mtime ≤ b.mtime) acc →
      List.Pairwise (fun a b => a.mtime ≤ b.mtime)
        (l.foldl (fun acc x => insertLe (fun a b => a.mtime ≤ b.mtime) x acc)
          acc) := by
    intro l
    induction l with
    | nil => intro acc h; exact h
    | cons x r ih =>
      intro acc h
      exact ih _ (insertLe_sorted_mtime h)
  exact haux l [] (by simp)

/-! ## Character provenance of the reconstructed job metadata -/

theorem mem_pyStrip {x : Nat} {l : PyStr} (h : x ∈ pyStrip l) : x ∈ l := by
  unfold pyStrip rstripWs dropWs at h
  rw [List.mem_reverse] at h
  have h1 := ((List.dropWhile_sublist _).mem h)
  rw [List.mem_reverse] at h1
  exact (List.dropWhile_sublist _).mem h1

theorem mem_afterFirst {x c : Nat} {l : PyStr} (h : x ∈ afterFirst c l) :
    x ∈ l := by
  unfold afterFirst at h
  exact (List.dropWhile_sublist _).mem ((List.drop_sublist _ _).mem h)

theorem findQuoted_mem {key : PyStr} {l g : PyStr}
    (h : findQuoted key l = some g) : ∀ x ∈ g, x ∈ l := by
  induction l with
  | nil => simp [findQuoted] at h
  | cons c rest ih =>
    rw [findQuoted] at h
    by_cases hs : startsW key (c :: rest) = true
    · rw [if_pos hs] at h
      by_cases hg : ((c :: rest).drop key.length).takeWhile (· ≠ 34) ≠ [] ∧
          (((c :: rest).drop key.length).takeWhile (· ≠ 34)).length <
            ((c :: rest).drop key.length).length
      · rw [if_pos hg] at h
        cases h
        intro x hx
        exact (List.drop_sublist _ _).mem ((List.takeWhile_sublist _).mem hx)
      · rw [if_neg hg] at h
        intro x hx
        exact List.mem_cons_of_mem c (ih h x hx)
    · rw [if_neg hs] at h
      intro x hx
      exact List.mem_cons_of_mem c (ih h x hx)

theorem pySplitAux_nonspace_tokens :
    ∀ (s acc : PyStr), (∀ x ∈ acc, isSpace x = false) →
      ∀ t ∈ pySplitAux s acc, ∀ x ∈ t, isSpace x = false := by
  intro s
  induction s with
  | nil =>
    intro acc hacc t ht x hx
    by_cases h : acc = []
    · simp [pySplitAux, h] at ht
    · simp only [pySplitAux, if_neg h, List.mem_singleton] at ht
      subst ht
      exact hacc x (List.mem_reverse.1 hx)
  | cons c r ih =>
    intro acc hacc t ht x hx
    by_cases hc : isSpace c = true
    · simp only [pySplitAux, hc, if_true] at ht
      by_cases h : acc = []
      · rw [if_pos h] at ht
        exact ih [] (by simp) t ht x hx
      · rw [if_neg h] at ht
        rcases List.mem_cons.1 ht with h' | h'
        · subst h'
          exact hacc x (List.mem_reverse.1 hx)
        · exact ih [] (by simp) t h' x hx
    · simp only [pySplitAux, hc, Bool.false_eq_true, if_false] at ht
      refine ih (c :: acc) ?_ t ht x hx
      intro y hy
      rcases List.mem_cons.1 hy with h' | h'
      · subst h'
        simpa using hc
      · exact hacc y h'

theorem pySplit_nonspace {s : PyStr} :
    ∀ t ∈ pySplit s, ∀ x ∈ t, isSpace x = false :=
  pySplitAux_nonspace_tokens s [] (by simp)

theorem splitSep_mem_subset {sep : Nat} :
    ∀ {s : PyStr}, ∀ l ∈ splitSep sep s, ∀ x ∈ l, x ∈ s := by
  intro s
  induction s with
  | nil => simp [splitSep]
  | cons c r ih =>
    intro l hl x hx
    by_cases hc : c = sep
    · simp only [splitSep, if_pos hc] at hl
      rcases List.mem_cons.1 hl with h' | h'
      · simp [h'] at hx
      · exact List.mem_cons_of_mem c (ih l h' x hx)
    · simp only [splitSep, if_neg hc] at hl
      obtain ⟨h, t, hht⟩ := splitSep_cons_ex sep r
      rw [hht] at hl
      simp only [List.modifyHead] at hl
      rcases List.mem_cons.1 hl with h' | h'
      · subst h'
        rcases List.mem_cons.1 hx with h'' | h''
        · simp [h'']
        · exact List.mem_cons_of_mem c (ih h (by rw [hht]; simp) x h'')
      · exact List.mem_cons_of_mem c (ih l (by rw [hht]; simp [h']) x hx)

theorem splitSep_not_mem {sep : Nat} :
    ∀ {s : PyStr}, ∀ l ∈ splitSep sep s, sep ∉ l := by
  intro s
  induction s with
  | nil =>
    intro l hl
    simp only [splitSep, List.mem_singleton] at hl
    simp [hl]
  | cons c r ih =>
    intro l hl
    by_cases hc : c = sep
    · simp only [splitSep, if_pos hc] at hl
      rcases List.mem_cons.1 hl with h' | h'
      · simp [h']
      · exact ih l h'
    · simp only [splitSep, if_neg hc] at hl
      obtain ⟨h, t, hht⟩ := splitSep_cons_ex sep r
      rw [hht] at hl
      simp only [List.modifyHead] at hl
      rcases List.mem_cons.1 hl with h' | h'
      · subst h'
        intro hmem
        rcases List.mem_cons.1 hmem with h'' | h''
        · exact hc h''.symm
        · exact ih h (by rw [hht]; simp) h''
      · exact ih l (by rw [hht]; simp [h'])

/-- Invariant carried through `parse_job_metadata`'s line loop: no field ever
contains a newline (fields come from within single lines). -/
def PjmNoNl (st : PyStr × PyStr × List PyStr) : Prop :=
  (10 : Nat) ∉ st.1 ∧ (10 : Nat) ∉ st.2.1 ∧ ∀ b ∈ st.2.2, (10 : Nat) ∉ b

theorem pjmLine_no_nl {st : PyStr × PyStr × List PyStr} {line : PyStr}
    (hline : (10 : Nat) ∉ line) (hst : PjmNoNl st) :
    PjmNoNl (pjmLine st line) := by
  obtain ⟨h1, h2, h3⟩ := hst
  unfold pjmLine
  dsimp only
  have hstrip : (10 : Nat) ∉ pyStrip line := fun h => hline (mem_pyStrip h)
  by_cases hu : startsW (pystr "# User:") (pyStrip line) = true
  · rw [if_pos hu]
    by_cases hv : pyStrip (afterFirst 58 (pyStrip line)) = []
    · rw [if_pos hv]
      exact ⟨h1, h2, h3⟩
    · rw [if_neg hv]
      refine ⟨fun h => hstrip (mem_afterFirst (mem_pyStrip h)), h2, h3⟩
  · rw [if_neg hu]
    by_cases hcm : startsW (pystr "# Comment:") (pyStrip line) = true
    · rw [if_pos hcm]
      exact ⟨h1, fun h => hstrip (mem_afterFirst (mem_pyStrip h)), h3⟩
    · rw [if_neg hcm]
      by_cases hbm : isSub (pystr "BENCHMARKS=") (pyStrip line) = true
      · rw [if_pos hbm]
        cases hq : findQuoted (pystr "BENCHMARKS=\x22") (pyStrip line) with
        | none => exact ⟨h1, h2, h3⟩
        | some g =>
          refine ⟨h1, h2, fun b hb => ?_⟩
          rcases List.mem_append.1 hb with h' | h'
          · exact h3 b h'
          · intro hx
            have := pySplit_nonspace b h' 10 hx
            simp [isSpace] at this
      · rw [if_neg hbm]
        by_cases hbn : isSub (pystr "BENCH_NAME=") (pyStrip line) = true
        · rw [if_pos hbn]
          cases hq : findQuoted (pystr "BENCH_NAME=\x22") (pyStrip line) with
          | none => exact ⟨h1, h2, h3⟩
          | some g =>
            refine ⟨h1, h2, fun b hb => ?_⟩
            rcases List.mem_append.1 hb with h' | h'
            · exact h3 b h'
            · rw [List.mem_singleton] at h'
              subst h'
              exact fun hx => hstrip (findQuoted_mem hq 10 hx)
        · rw [if_neg hbn]
          exact ⟨h1, h2, h3⟩

theorem pjm_fold_no_nl {lines : List PyStr}
    (hl : ∀ l ∈ lines, (10 : Nat) ∉ l) :
    ∀ {st : PyStr × PyStr × List PyStr}, PjmNoNl st →
      PjmNoNl (lines.foldl pjmLine st) := by
  induction lines with
  | nil => intro st h; exact h
  | cons l rest ih =>
    intro st h
    simp only [List.foldl_cons]
    exact ih (fun l' hl' => hl l' (by simp [hl']))
      (pjmLine_no_nl (hl l (by simp)) h)

theorem parse_job_metadata_no_nl (content : PyStr) :
    (10 : Nat) ∉ (parse_job_metadata content).1 ∧
    (10 : Nat) ∉ (parse_job_metadata content).2.1 ∧
    (10 : Nat) ∉ (parse_job_metadata content).2.2 := by
  have hinv : PjmNoNl ((splitSep 10 content).foldl pjmLine
      (pystr "unknown", [], [])) := by
    refine pjm_fold_no_nl (fun l hl => splitSep_not_mem l hl) ?_
    exact ⟨by decide, by simp, by simp⟩
  obtain ⟨h1, h2, h3⟩ := hinv
  unfold parse_job_metadata
  dsimp only
  refine ⟨h1, ?_, h2⟩
  by_cases hb : ((splitSep 10 content).foldl pjmLine
      (pystr "unknown", [], [])).2.2 = []
  · rw [if_pos hb]
    decide
  · rw [if_neg hb]
    intro hx
    rcases mem_pyJoin hx with h' | ⟨b, hb', hx'⟩
    · simp at h'
    · exact h3 b hb' hx'

theorem basename_no_nl {path : PyStr} (h : (10 : Nat) ∉ path) :
    (10 : Nat) ∉ basename path := by
  unfold basename
  cases hlast : (splitSep 47 path).getLast? with
  | none => simp
  | some y =>
    simp only [Option.getD_some]
    intro hx
    exact h (splitSep_mem_subset y
      (List.mem_of_getLast?_eq_some hlast) 10 hx)

theorem not_mem_append_pystr {a : Nat} {l1 l2 : PyStr} (h1 : a ∉ l1)
    (h2 : a ∉ l2) : a ∉ l1 ++ l2 := by
  simp only [List.mem_append, not_or]
  exact ⟨h1, h2⟩

theorem queueRow_no_nl {j : JobFile} (h : (10 : Nat) ∉ j.name) :
    (10 : Nat) ∉ queueRow j := by
  obtain ⟨h1, h2, h3⟩ := parse_job_metadata_no_nl j.content
  unfold queueRow
  dsimp only
  refine not_mem_append_pystr (not_mem_append_pystr (not_mem_append_pystr
    (not_mem_append_pystr (not_mem_append_pystr (not_mem_append_pystr
      (not_mem_append_pystr (not_mem_append_pystr (by decide)
        (basename_no_nl h)) (by decide)) h1) (by decide))
      ?_) (by decide)) ?_) (by decide)
  · split
    · decide
    · exact h2
  · split
    · decide
    · exact h3

/-! ## Line structure of the queue reply and of the emitted script -/

theorem queue_body_no_jobs {login url : PyStr} {jobs : List JobFile}
    (hjf : list_job_files jobs = []) :
    isSub (pystr "No pending jobs") (queue_body login url jobs) = true := by
  simp only [queue_body]
  rw [if_pos hjf]
  apply isSub_of_eq
    (pystr "🤖 Hi @" ++ login ++
      pystr ", you asked to view the benchmark queue (" ++ url ++
      pystr ")." ++ [10, 10]) (pystr " in `jobs/`.")
  rw [show pystr "No pending jobs in `jobs/`." =
    pystr "No pending jobs" ++ pystr " in `jobs/`." from by decide]
  simp [pyJoin, List.append_assoc]

theorem queue_header_no_nl {login url : PyStr} (h10l : (10 : Nat) ∉ login)
    (h10u : (10 : Nat) ∉ url) :
    (10 : Nat) ∉
      pystr "🤖 Hi @" ++ login ++
        pystr ", you asked to view the benchmark queue (" ++ url ++
        pystr ")." :=
  not_mem_append_pystr (not_mem_append_pystr (not_mem_append_pystr
    (not_mem_append_pystr (by decide) h10l) (by decide)) h10u) (by decide)

theorem mem_list_job_files {jobs : List JobFile} {j : JobFile}
    (h : j ∈ list_job_files jobs) : j ∈ jobs := by
  unfold list_job_files at h
  exact (List.mem_filter.1 ((sortLe_perm _ _).mem_iff.1 h)).1

theorem queue_body_rows {login url : PyStr} {jobs : List JobFile}
    (hne : list_job_files jobs ≠ []) (h10l : (10 : Nat) ∉ login)
    (h10u : (10 : Nat) ∉ url) (hjobs : ∀ j ∈ jobs, (10 : Nat) ∉ j.name) :
    splitSep 10 (queue_body login url jobs) =
      (pystr "🤖 Hi @" ++ login ++
        pystr ", you asked to view the benchmark queue (" ++ url ++
        pystr ").") :: [] ::
      pystr "| Job | User | Benchmarks | Comment |" ::
      pystr "| --- | --- | --- | --- |" ::
      (list_job_files jobs).map queueRow := by
  simp only [queue_body]
  rw [if_neg hne]
  apply splitSep_pyJoin (by simp)
  intro p hp
  rcases List.mem_cons.1 hp with h | hp
  · subst h
    exact queue_header_no_nl h10l h10u
  rcases List.mem_cons.1 hp with h | hp
  · subst h
    simp
  rcases List.mem_cons.1 hp with h | hp
  · subst h
    decide
  rcases List.mem_cons.1 hp with h | hp
  · subst h
    decide
  obtain ⟨j, hj, rfl⟩ := List.mem_map.1 hp
  exact queueRow_no_nl (hjobs j (mem_list_job_files hj))

theorem benchLine_no_nl {cfg : RepoConfig} {pr b : PyStr}
    (hb : (10 : Nat) ∉ b) (hrep : (10 : Nat) ∉ cfg.repo)
    (hstd : (10 : Nat) ∉ cfg.std_cmd) (hcrit : (10 : Nat) ∉ cfg.criterion_cmd)
    (hpr : (10 : Nat) ∉ pr) : (10 : Nat) ∉ benchLine cfg pr b := by
  have hurl : (10 : Nat) ∉ prUrl cfg pr :=
    not_mem_append_pystr (not_mem_append_pystr (not_mem_append_pystr
      (by decide) hrep) (by decide)) hpr
  unfold benchLine
  split
  · exact not_mem_append_pystr (not_mem_append_pystr (not_mem_append_pystr
      (not_mem_append_pystr (not_mem_append_pystr (by decide) hb)
        (by decide)) hcrit) (by decide)) hurl
  · exact not_mem_append_pystr (not_mem_append_pystr (not_mem_append_pystr
      (not_mem_append_pystr (not_mem_append_pystr (by decide) hb)
        (by decide)) hstd) (by decide)) hurl

theorem get_benchmark_script_lines {cfg : RepoConfig} {pr : PyStr}
    {benches : List PyStr} (hne : benches ≠ [])
    (hno : ∀ b ∈ benches, (10 : Nat) ∉ b) (hrep : (10 : Nat) ∉ cfg.repo)
    (hstd : (10 : Nat) ∉ cfg.std_cmd) (hcrit : (10 : Nat) ∉ cfg.criterion_cmd)
    (hpr : (10 : Nat) ∉ pr) :
    splitSep 10 (get_benchmark_script cfg pr benches) =
      benches.map (benchLine cfg pr) := by
  unfold get_benchmark_script
  rw [if_pos hne]
  apply splitSep_pyJoin (by simp [hne])
  intro p hp
  obtain ⟨b, hb, rfl⟩ := List.mem_map.1 hp
  exact benchLine_no_nl (hno b hb) hrep hstd hcrit hpr

/-! ## The notice body lists every allowed user -/

theorem isSub_trans {a b c : PyStr} (h1 : isSub a b = true)
    (h2 : isSub b c = true) : isSub a c = true := by
  obtain ⟨s1, t1, e1⟩ := of_decide_eq_true h1
  obtain ⟨s2, t2, e2⟩ := of_decide_eq_true h2
  apply decide_eq_true
  exact ⟨s2 ++ s1, t1 ++ t2, by rw [← e2, ← e1]; simp⟩

theorem mem_isSub_pyJoin {p : PyStr} {sep : PyStr} {parts : List PyStr}
    (h : p ∈ parts) : isSub p (pyJoin sep parts) = true := by
  induction parts with
  | nil => simp at h
  | cons q rest ih =>
    obtain ⟨t, ht⟩ := pyJoin_cons_ex sep q rest
    rcases List.mem_cons.1 h with h' | h'
    · subst h'
      rw [ht]
      exact isSub_append_right t
        (decide_eq_true ⟨[], [], by simp⟩)
    · cases rest with
      | nil => simp at h'
      | cons q' r' =>
        have hih := ih h'
        have hjoin : pyJoin sep (q :: q' :: r') =
            (q ++ sep) ++ pyJoin sep (q' :: r') := by
          simp [pyJoin]
        rw [hjoin]
        obtain ⟨s1, t1, e1⟩ := of_decide_eq_true hih
        apply decide_eq_true
        exact ⟨(q ++ sep) ++ s1, t1, by rw [← e1]; simp⟩

theorem isSub_user_markdown {u : PyStr} (h : u ∈ ALLOWED_USERS) :
    isSub u allowed_users_markdown = true := by
  have h1 : isSub u (userLink u) = true :=
    isSub_of_eq (pystr "[")
      (pystr "](https://github.com/" ++ u ++ pystr ")")
      (by simp [userLink, List.append_assoc])
  have h2 : userLink u ∈ (sortLe lexLe ALLOWED_USERS).map userLink :=
    List.mem_map.2 ⟨u, (sortLe_perm lexLe ALLOWED_USERS).mem_iff.2 h, rfl⟩
  exact isSub_trans h1 (mem_isSub_pyJoin h2)

theorem isSub_markdown_notice (login url : PyStr) :
    isSub allowed_users_markdown (notice_body login url) = true :=
  isSub_of_eq
    (pystr "🤖 Hi @" ++ login ++ pystr ", thanks for the request (" ++ url ++
      pystr "). " ++ SCRIPT_MARKDOWN_LINK ++
      pystr " only responds to whitelisted users. Allowed users: ")
    (pystr ".") (by simp [notice_body, List.append_assoc])

theorem isSub_user_notice_body {u login url : PyStr} (h : u ∈ ALLOWED_USERS) :
    isSub u (notice_body login url) = true :=
  isSub_trans (isSub_user_markdown h) (isSub_markdown_notice login url)

/-! ## The single-name request body is already stripped -/

theorem rstripWs_eq_self {s : PyStr} {y : Nat} {t : PyStr}
    (h : s.reverse = y :: t) (hy : isSpace y = false) : rstripWs s = s := by
  unfold rstripWs
  rw [h, List.dropWhile_cons, hy]
  simp only [Bool.false_eq_true, if_false]
  rw [← h, List.reverse_reverse]

theorem pyStrip_run_benchmark (X : PyStr) (hne : X ≠ [])
    (hns : ∀ x ∈ X, isSpace x = false) :
    pyStrip (pystr "run benchmark " ++ X) = pystr "run benchmark " ++ X := by
  obtain ⟨y, ys, hrev⟩ : ∃ y ys, X.reverse = y :: ys := by
    cases hX : X.reverse with
    | nil => exact absurd (by simpa using congrArg List.reverse hX) hne
    | cons y ys => exact ⟨y, ys, rfl⟩
  have hy : isSpace y = false := hns y (by rw [← List.mem_reverse, hrev]; simp)
  have hrev2 : (pystr "run benchmark " ++ X).reverse =
      y :: (ys ++ (pystr "run benchmark ").reverse) := by
    rw [List.reverse_append, hrev]
    rfl
  rw [pyStrip, dropWs_run_benchmark, rstripWs_eq_self hrev2 hy]

theorem startsW_run_benchmark_lower (X : PyStr) (hne : X ≠ [])
    (hns : ∀ x ∈ X, isSpace x = false) :
    startsW (pystr "run benchmark")
      (lowerS (pyStrip (pystr "run benchmark " ++ X))) = true := by
  rw [pyStrip_run_benchmark X hne hns]
  have hl : lowerS (pystr "run benchmark " ++ X) =
      pystr "run benchmark " ++ lowerS X := by
    unfold lowerS
    rw [List.map_append]
    rw [show List.map lowerC (pystr "run benchmark ") =
      pystr "run benchmark " from by decide]
  rw [hl]
  apply decide_eq_true
  refine ⟨32 :: lowerS X, ?_⟩
  rw [show pystr "run benchmark " =
    pystr "run benchmark" ++ [32] from by decide]
  simp

theorem post_user_notice_fresh {cfg : RepoConfig} {S : St}
    {pr login url : PyStr} (h : already_posted S cfg pr url = false) :
    (post_user_notice cfg S pr login url).2 =
      [Ev.reply cfg.repo pr (notice_body login url)] := by
  unfold post_user_notice post_reply
  rw [if_neg (by simp [h])]

/-! ## Concrete fixtures used by witnesses and counterexamples -/

/-- An empty external store. -/
def exState0 : St := { replies := [], jobs := [], dones := [], clock := 0 }

/-- An authorized single-benchmark request on datafusion PR 42. -/
def exComment : Comment :=
  { body := pystr "run benchmark tpch"
    login := pystr "alamb"
    html_url := pystr "https://github.com/apache/datafusion/pull/42#issuecomment-7"
    issue_url := pystr "https://api.github.com/repos/apache/datafusion/issues/42"
    id := pystr "99" }

/-- The same request from a login outside the allow-list. -/
def exUnauthComment : Comment := { exComment with login := pystr "randomuser" }

/-- An authorized criterion request on arrow-rs PR 7. -/
def exArrowComment : Comment :=
  { body := pystr "run benchmark arrow_reader"
    login := pystr "alamb"
    html_url := pystr "https://github.com/apache/arrow-rs/pull/7#issuecomment-1"
    issue_url := pystr "https://api.github.com/repos/apache/arrow-rs/issues/7"
    id := pystr "5" }

/-- A store in which `exComment`'s job descriptor already exists. -/
def exStateJob : St :=
  { replies := []
    jobs := [{ name := pystr "jobs/42_99.sh", mtime := 0, content := [] }]
    dones := []
    clock := 1 }

/-- The bare malformed command. -/
def exBareComment : Comment := { exComment with body := pystr "run benchmark" }

/-- A pending job file, newer. -/
def exJobA : JobFile :=
  { name := pystr "jobs/a.sh", mtime := 7
    content := pystr "# User: alice\n# Comment: url-a\n\nBENCHMARKS=\x22tpch\x22 ./run.sh x" }

/-- A pending job file, older. -/
def exJobB : JobFile :=
  { name := pystr "jobs/b.sh", mtime := 3
    content := pystr "# User: bob\n# Comment: url-b\n\nBENCH_NAME=\x22sql_planner\x22 ./crit.sh x" }

/-! ## Claims -/

/-- C1: run-level idempotency.  For every fixed per-repository comment list
and every external store, running the dispatcher a second time from the
state the first run produced changes nothing and emits no events — in
particular it posts zero new replies and creates zero new job files. -/
theorem C1_run_idempotent (ps : List (RepoConfig × List Comment)) (S0 : St) :
    runAll (runAll S0 ps).1 ps = ((runAll S0 ps).1, []) :=
  runAll_idem S0 ps

/-- C2 counterexample: with two configured repositories where the first
window fetch fails, the run terminates (`sys.exit`) with the store
untouched, even though processing the second repository's pending
authorized request alone would have changed the store — so a failure for
one repository does prevent the remaining repositories from being
processed, contradicting the claim. -/
theorem C2_counterexample :
    mainLoop [(cfgDF, none), (cfgArrow, some [exArrowComment])] exState0 =
      (exState0, true) ∧
    (processRepo cfgArrow exState0 [exArrowComment]).1 ≠ exState0 := by
  constructor
  · rfl
  · decide

/-- C2 amended: a non-success API call (modelled at the window fetch, the
shared `run_gh_api` helper exits the process for every call) terminates the
overall run immediately: repositories before the failing one are processed
normally, the failing one and every remaining one are not processed at
all. -/
theorem C2_failure_terminates_run (pre : List (RepoConfig × List Comment))
    (cfg : RepoConfig) (rest : List (RepoConfig × FetchRes)) (S : St) :
    mainLoop (pre.map (fun p => (p.1, some p.2)) ++ (cfg, none) :: rest) S =
      ((runAll S pre).1, true) := by
  induction pre generalizing S with
  | nil => rfl
  | cons p ps ih =>
    simp only [List.map_cons, List.cons_append, mainLoop, runAll]
    exact ih _

/-- C3: classifier grammar.  Any body matching `^\s*run\s+benchmarks\s*$`
case-insensitively classifies as the default suite (`some []`); a body
`run benchmark X` for a well-formed single name `X` classifies as
`some [X]` when `X` is in either allow-set, and with `X` in neither
allow-set it classifies as `none` and is routed to the
unsupported-benchmark path (the `run benchmark` prefix re-check fires)
carrying exactly the requested name. -/
theorem C3_classifier_grammar (cfg : RepoConfig) :
    (∀ body, RegexRunBenchmarks body → detect_benchmark cfg body = some []) ∧
    (∀ X : PyStr, X ≠ [] →
      (∀ x ∈ X, isClassChar x = true ∧ isSpace x = false) →
      ((X ∈ cfg.allowed_standard ∨ X ∈ cfg.allowed_criterion →
        detect_benchmark cfg (pystr "run benchmark " ++ X) = some [X]) ∧
      (¬(X ∈ cfg.allowed_standard ∨ X ∈ cfg.allowed_criterion) →
        detect_benchmark cfg (pystr "run benchmark " ++ X) = none ∧
        startsW (pystr "run benchmark")
          (lowerS (pyStrip (pystr "run benchmark " ++ X))) = true ∧
        (pySplit (pystr "run benchmark " ++ X)).drop 2 = [X]))) := by
  constructor
  · rintro body ⟨a, r, b, n, c, rfl, ha, hr, hb, hball, hn, hc⟩
    rw [detect_benchmark, matchRB_complete ha hr hb hball hn hc]
    rfl
  · intro X hne hwf
    have hcl : ∀ x ∈ X, isClassChar x = true := fun x hx => (hwf x hx).1
    have hns : ∀ x ∈ X, ¬ isSpace x = true := fun x hx => by
      simp [(hwf x hx).2]
    have hns' : ∀ x ∈ X, isSpace x = false := fun x hx => (hwf x hx).2
    constructor
    · intro hmem
      rw [detect_run_benchmark_name cfg X hne hcl hns, if_pos hmem]
    · intro hmem
      refine ⟨?_, startsW_run_benchmark_lower X hne hns', ?_⟩
      · rw [detect_run_benchmark_name cfg X hne hcl hns, if_neg hmem]
      · rw [pySplit_run_benchmark X hne hns]
        rfl

/-- C3 witness: the default-suite phrase, an allow-listed name and an
unknown name, against the datafusion configuration. -/
theorem C3_witness :
    detect_benchmark cfgDF (pystr "run benchmarks") = some [] ∧
    detect_benchmark cfgDF (pystr "run benchmark tpch") = some [pystr "tpch"] ∧
    detect_benchmark cfgDF (pystr "run benchmark nonexistent") = none := by
  have h := C3_classifier_grammar cfgDF
  refine ⟨?_, ?_, ?_⟩
  · refine h.1 (pystr "run benchmarks")
      ⟨[], pystr "run", [32], pystr "benchmarks", [], by decide, by decide,
        by decide, by decide, by decide, by decide, by decide⟩
  · exact ((h.2 (pystr "tpch") (by decide) (by decide)).1) (by decide)
  · exact (((h.2 (pystr "nonexistent") (by decide) (by decide)).2)
      (by decide)).1

/-- C4 counterexample: an unparseable comment-window response is fatal —
`fetch_recent_review_comments` calls `sys.exit(1)` (modelled as
`Except.error 1`), contradicting "never fatal to the process". -/
theorem C4_counterexample :
    fetch_recent_review_comments WindowResp.malformed = Except.error 1 := rfl

/-- C4 amended: an unparseable per-PR reply-bodies response is logged and
treated as "no bodies" (never fatal), and a parseable-but-non-list window
response is treated as "no comments"; but an unparseable window response is
fatal: the process exits with status 1. -/
theorem C4_malformed_data_behavior :
    fetch_issue_comment_bodies BodiesResp.malformed = [] ∧
    fetch_issue_comment_bodies BodiesResp.nonList = [] ∧
    (∀ items, fetch_issue_comment_bodies (BodiesResp.ok items) =
      items.filterMap fun i =>
        match i with
        | .withBody b => some b
        | .notDictOrNoStr => none) ∧
    fetch_recent_review_comments WindowResp.nonList = Except.ok [] ∧
    fetch_recent_review_comments WindowResp.malformed = Except.error 1 :=
  ⟨rfl, rfl, fun _ => rfl, rfl, rfl⟩

/-- C5 counterexample: classification is not invariant under changing the
letter case of the body — the trigger matches case-insensitively but
allow-set membership is case-sensitive, so `run benchmark tpch` is accepted
while its upper-case variant (same letters up to case) is rejected. -/
theorem C5_counterexample :
    lowerS (pystr "RUN BENCHMARK TPCH") =
      lowerS (pystr "run benchmark tpch") ∧
    detect_benchmark cfgDF (pystr "run benchmark tpch") =
      some [pystr "tpch"] ∧
    detect_benchmark cfgDF (pystr "RUN BENCHMARK TPCH") = none := by
  refine ⟨by decide, by decide, by decide⟩

/-- C5 amended: trigger recognition is case-insensitive and anchored to the
whole trimmed body — for bodies equal up to letter case, the
default-suite match, the queue match, the unsupported-path prefix re-check
agree, and the extracted name tails agree up to case; the default-suite
match holds exactly on whole-body decompositions of the regex
(anchoring).  Benchmark-name acceptance, however, tests the literal names
against the allow-sets and so remains case-sensitive. -/
theorem C5_case_insensitive_triggers (cfg : RepoConfig) (b1 b2 : PyStr)
    (h : lowerS b1 = lowerS b2) :
    matchRunBenchmarks b1 = matchRunBenchmarks b2 ∧
    isQueueBody b1 = isQueueBody b2 ∧
    startsW (pystr "run benchmark") (lowerS (pyStrip b1)) =
      startsW (pystr "run benchmark") (lowerS (pyStrip b2)) ∧
    (runBenchmarkTail b1).map lowerS = (runBenchmarkTail b2).map lowerS ∧
    (matchRunBenchmarks b1 = true ↔ RegexRunBenchmarks b1) := by
  have hkey : lowerS (pyStrip b1) = lowerS (pyStrip b2) := by
    rw [← pyStrip_lowerS, ← pyStrip_lowerS, h]
  refine ⟨?_, ?_, ?_, ?_, ?_⟩
  · rw [← matchRB_lowerS b1, ← matchRB_lowerS b2, h]
  · unfold isQueueBody
    rw [hkey]
  · rw [hkey]
  · rw [← runBenchmarkTail_lowerS b1, ← runBenchmarkTail_lowerS b2, h]
  · constructor
    · exact matchRB_sound
    · rintro ⟨a, r, b, n, c, rfl, ha, hr, hb, hball, hn, hc⟩
      exact matchRB_complete ha hr hb hball hn hc

/-- C5 witness: the amended invariances at a concrete case-variant pair. -/
theorem C5_witness :
    matchRunBenchmarks (pystr "RUN Benchmarks") =
      matchRunBenchmarks (pystr "run benchmarks") ∧
    isQueueBody (pystr "RUN Benchmarks") = isQueueBody (pystr "run benchmarks") ∧
    startsW (pystr "run benchmark") (lowerS (pyStrip (pystr "RUN Benchmarks"))) =
      startsW (pystr "run benchmark")
        (lowerS (pyStrip (pystr "run benchmarks"))) ∧
    (runBenchmarkTail (pystr "RUN Benchmarks")).map lowerS =
      (runBenchmarkTail (pystr "run benchmarks")).map lowerS ∧
    (matchRunBenchmarks (pystr "RUN Benchmarks") = true ↔
      RegexRunBenchmarks (pystr "RUN Benchmarks")) :=
  C5_case_insensitive_triggers cfgDF (pystr "RUN Benchmarks")
    (pystr "run benchmarks") (by decide)

/-- C6: authorization.  A comment classified as a benchmark request whose
author is not allow-listed never creates a job file (the job store is
untouched), and the user-notice reply — whose body links every allowed
user — is posted instead (posted when not already present per the reply
ledger; the acknowledged state change is exactly that one reply). -/
theorem C6_authorization (cfg : RepoConfig) (S : St) (c : Comment)
    (ns : List PyStr) (hd : detect_benchmark cfg c.body = some ns)
    (hl : c.login ∉ ALLOWED_USERS)
    (hpr : pr_number_from_url c.issue_url ≠ []) :
    (process_comment cfg S c).1.jobs = S.jobs ∧
    process_comment cfg S c =
      post_user_notice cfg S (pr_number_from_url c.issue_url) c.login
        c.html_url ∧
    (already_posted S cfg (pr_number_from_url c.issue_url) c.html_url =
        false →
      (process_comment cfg S c).2 =
        [Ev.reply cfg.repo (pr_number_from_url c.issue_url)
          (notice_body c.login c.html_url)]) ∧
    (∀ u ∈ ALLOWED_USERS, isSub u (notice_body c.login c.html_url) = true) := by
  have heq := @process_comment_unauth cfg S c ns hd hpr hl
  refine ⟨?_, heq, ?_, fun u hu => isSub_user_notice_body hu⟩
  · rw [heq]
    exact post_reply_jobs cfg S _ _ _
  · intro hap
    rw [heq]
    exact post_user_notice_fresh hap

/-- C6 witness: the unauthorized request on an empty store. -/
theorem C6_witness :
    (process_comment cfgDF exState0 exUnauthComment).1.jobs =
      exState0.jobs ∧
    process_comment cfgDF exState0 exUnauthComment =
      post_user_notice cfgDF exState0
        (pr_number_from_url exUnauthComment.issue_url)
        exUnauthComment.login exUnauthComment.html_url ∧
    (already_posted exState0 cfgDF
        (pr_number_from_url exUnauthComment.issue_url)
        exUnauthComment.html_url = false →
      (process_comment cfgDF exState0 exUnauthComment).2 =
        [Ev.reply cfgDF.repo (pr_number_from_url exUnauthComment.issue_url)
          (notice_body exUnauthComment.login exUnauthComment.html_url)]) ∧
    (∀ u ∈ ALLOWED_USERS,
      isSub u (notice_body exUnauthComment.login
        exUnauthComment.html_url) = true) :=
  C6_authorization cfgDF exState0 exUnauthComment [pystr "tpch"] (by decide)
    (by decide) (by decide)

/-- C7: job-creation ledger.  (a) For an authorized benchmark request whose
descriptor file or `.done` sidecar already exists, `process_comment` is a
complete no-op: no descriptor is written, no reply and no reaction is
emitted.  (b) Across arbitrarily many dispatcher invocations from any
store, at most one job-descriptor write ever happens for a given path. -/
theorem C7_job_ledger :
    (∀ (cfg : RepoConfig) (S : St) (c : Comment) (ns : List PyStr),
      detect_benchmark cfg c.body = some ns →
      pr_number_from_url c.issue_url ≠ [] →
      c.login ∈ ALLOWED_USERS →
      (job_file_name cfg (pr_number_from_url c.issue_url) c.id ∈ jobNames S ∨
        (job_file_name cfg (pr_number_from_url c.issue_url) c.id ++
          pystr ".done") ∈ S.dones) →
      process_comment cfg S c = (S, [])) ∧
    (∀ (f : PyStr) (S : St) (rs : List (List (RepoConfig × List Comment))),
      countJW f (runsAll S rs).2 ≤ 1) := by
  constructor
  · intro cfg S c ns hd hpr hl hex
    rw [process_comment_authorized hd hpr hl]
    exact jobStep_skip hex
  · intro f S rs
    exact runsAll_at_most_one f S rs

/-- C7 witness: the authorized request against a store already holding its
descriptor is a no-op. -/
theorem C7_witness :
    process_comment cfgDF exStateJob exComment = (exStateJob, []) :=
  C7_job_ledger.1 cfgDF exStateJob exComment [pystr "tpch"] (by decide)
    (by decide) (by decide) (Or.inl (by decide))

/-- C8: invocation rendering.  For a non-empty request, the emitted script
splits on newlines into exactly one line per requested name, in request
order: criterion-listed names render `BENCH_NAME="<name>"` with the
criterion command, all other names render `BENCHMARKS="<name>"` with the
standard command, each applied to the PR URL.  For the empty request the
script is exactly one line: the standard command applied to the PR URL with
no environment binding. -/
theorem C8_invocation_rendering (cfg : RepoConfig) (pr : PyStr)
    (benches : List PyStr) :
    (benches ≠ [] → (∀ b ∈ benches, (10 : Nat) ∉ b) →
      (10 : Nat) ∉ cfg.repo → (10 : Nat) ∉ cfg.std_cmd →
      (10 : Nat) ∉ cfg.criterion_cmd → (10 : Nat) ∉ pr →
      splitSep 10 (get_benchmark_script cfg pr benches) =
        benches.map fun b =>
          if b ∈ cfg.allowed_criterion then
            pystr "BENCH_NAME=\x22" ++ b ++ pystr "\x22 ./" ++
              cfg.criterion_cmd ++ pystr " " ++ prUrl cfg pr
          else
            pystr "BENCHMARKS=\x22" ++ b ++ pystr "\x22 ./" ++ cfg.std_cmd ++
              pystr " " ++ prUrl cfg pr) ∧
    (get_benchmark_script cfg pr [] =
      pystr "./" ++ cfg.std_cmd ++ pystr " " ++ prUrl cfg pr) ∧
    ((10 : Nat) ∉ cfg.repo → (10 : Nat) ∉ cfg.std_cmd → (10 : Nat) ∉ pr →
      splitSep 10 (get_benchmark_script cfg pr []) =
        [pystr "./" ++ cfg.std_cmd ++ pystr " " ++ prUrl cfg pr]) := by
  have hdef : get_benchmark_script cfg pr [] =
      pystr "./" ++ cfg.std_cmd ++ pystr " " ++ prUrl cfg pr := by
    simp [get_benchmark_script]
  refine ⟨?_, hdef, ?_⟩
  · intro hne hno hrep hstd hcrit hpr
    exact get_benchmark_script_lines hne hno hrep hstd hcrit hpr
  · intro hrep hstd hpr
    rw [hdef]
    apply splitSep_no_sep
    exact not_mem_append_pystr (not_mem_append_pystr (not_mem_append_pystr
      (by decide) hstd) (by decide))
      (not_mem_append_pystr (not_mem_append_pystr (not_mem_append_pystr
        (by decide) hrep) (by decide)) hpr)

/-- C8 witness: a mixed standard/criterion request and the default suite
against the datafusion configuration on PR 42. -/
theorem C8_witness :
    splitSep 10
        (get_benchmark_script cfgDF (pystr "42")
          [pystr "tpch", pystr "sql_planner"]) =
      [pystr "tpch", pystr "sql_planner"].map (fun b =>
        if b ∈ cfgDF.allowed_criterion then
          pystr "BENCH_NAME=\x22" ++ b ++ pystr "\x22 ./" ++
            cfgDF.criterion_cmd ++ pystr " " ++ prUrl cfgDF (pystr "42")
        else
          pystr "BENCHMARKS=\x22" ++ b ++ pystr "\x22 ./" ++ cfgDF.std_cmd ++
            pystr " " ++ prUrl cfgDF (pystr "42")) ∧
    splitSep 10 (get_benchmark_script cfgDF (pystr "42") []) =
      [pystr "./" ++ cfgDF.std_cmd ++ pystr " " ++ prUrl cfgDF (pystr "42")] :=
  ⟨(C8_invocation_rendering cfgDF (pystr "42")
      [pystr "tpch", pystr "sql_planner"]).1 (by decide) (by decide)
      (by decide) (by decide) (by decide) (by decide),
   (C8_invocation_rendering cfgDF (pystr "42") []).2.2 (by decide)
      (by decide) (by decide)⟩

/-- C9: queue reply.  With no pending `.sh` job files the reply body
contains "No pending jobs"; otherwise the body splits on newlines into the
greeting, a blank line, the two markdown table header lines, and exactly
one data row per pending `.sh` file — the rows being `queueRow` (job-file
basename plus the user, benchmarks and comment URL re-parsed by
`parse_job_metadata` from the file's header and binding lines) of the
pending files in last-modified-time ascending order (a sorted permutation
of the `.sh` files). -/
theorem C9_queue_reply (login url : PyStr) (jobs : List JobFile) :
    (list_job_files jobs = [] →
      isSub (pystr "No pending jobs") (queue_body login url jobs) = true) ∧
    (list_job_files jobs ≠ [] → (10 : Nat) ∉ login → (10 : Nat) ∉ url →
      (∀ j ∈ jobs, (10 : Nat) ∉ j.name) →
      splitSep 10 (queue_body login url jobs) =
        (pystr "🤖 Hi @" ++ login ++
          pystr ", you asked to view the benchmark queue (" ++ url ++
          pystr ").") :: [] ::
        pystr "| Job | User | Benchmarks | Comment |" ::
        pystr "| --- | --- | --- | --- |" ::
        (list_job_files jobs).map queueRow ∧
      ((list_job_files jobs).map queueRow).length =
        (jobs.filter fun j => endsW (pystr ".sh") j.name).length ∧
      List.Pairwise (fun a b => a.mtime ≤ b.mtime) (list_job_files jobs) ∧
      List.Perm (list_job_files jobs)
        (jobs.filter fun j => endsW (pystr ".sh") j.name)) := by
  constructor
  · intro hjf
    exact queue_body_no_jobs hjf
  · intro hne h10l h10u hjobs
    refine ⟨queue_body_rows hne h10l h10u hjobs, ?_, ?_, ?_⟩
    · rw [List.length_map]
      exact (sortLe_perm _ _).length_eq
    · exact sortLe_sorted_mtime _
    · exact sortLe_perm _ _

/-- C9 witness: the empty store and a two-file store whose files are out of
modification-time order. -/
theorem C9_witness :
    isSub (pystr "No pending jobs")
      (queue_body (pystr "alamb") (pystr "u") []) = true ∧
    (splitSep 10 (queue_body (pystr "alamb") (pystr "u") [exJobA, exJobB]) =
      (pystr "🤖 Hi @" ++ pystr "alamb" ++
        pystr ", you asked to view the benchmark queue (" ++ pystr "u" ++
        pystr ").") :: [] ::
      pystr "| Job | User | Benchmarks | Comment |" ::
      pystr "| --- | --- | --- | --- |" ::
      (list_job_files [exJobA, exJobB]).map queueRow ∧
    ((list_job_files [exJobA, exJobB]).map queueRow).length =
      ([exJobA, exJobB].filter fun j => endsW (pystr ".sh") j.name).length ∧
    List.Pairwise (fun a b => a.mtime ≤ b.mtime)
      (list_job_files [exJobA, exJobB]) ∧
    List.Perm (list_job_files [exJobA, exJobB])
      ([exJobA, exJobB].filter fun j => endsW (pystr ".sh") j.name)) :=
  ⟨(C9_queue_reply (pystr "alamb") (pystr "u") []).1 rfl,
   (C9_queue_reply (pystr "alamb") (pystr "u") [exJobA, exJobB]).2
     (by decide) (by decide) (by decide) (by decide)⟩

/-- C10: the bare body `run benchmark` (no names) is a malformed command,
not `NoTrigger`: the classifier rejects it, no job file is created for any
author, a not-allow-listed author gets the user-notice reply, and an
allow-listed author gets the supported-benchmarks reply built from the
empty requested-name list (so its unsupported list is empty). -/
theorem C10_bare_run_benchmark (cfg : RepoConfig) (S : St) (c : Comment)
    (hb : c.body = pystr "run benchmark")
    (hpr : pr_number_from_url c.issue_url ≠ []) :
    detect_benchmark cfg c.body = none ∧
    (process_comment cfg S c).1.jobs = S.jobs ∧
    (c.login ∉ ALLOWED_USERS →
      process_comment cfg S c =
        post_user_notice cfg S (pr_number_from_url c.issue_url) c.login
          c.html_url) ∧
    (c.login ∈ ALLOWED_USERS →
      process_comment cfg S c =
        post_supported_benchmarks cfg S (pr_number_from_url c.issue_url)
          c.login c.html_url []) := by
  have heq := @process_comment_bare cfg S c hb hpr
  refine ⟨by rw [hb]; exact detect_bare_run_benchmark cfg, ?_, ?_, ?_⟩
  · rw [heq]
    by_cases hl : c.login ∉ ALLOWED_USERS
    · rw [if_pos hl]
      exact post_reply_jobs cfg S _ _ _
    · rw [if_neg hl]
      exact post_reply_jobs cfg S _ _ _
  · intro hl
    rw [heq, if_pos hl]
  · intro hl
    rw [heq, if_neg (by simp [hl])]

/-- C10 witness: the bare command from an allow-listed author on PR 42. -/
theorem C10_witness :
    detect_benchmark cfgDF exBareComment.body = none ∧
    (process_comment cfgDF exState0 exBareComment).1.jobs =
      exState0.jobs ∧
    (exBareComment.login ∉ ALLOWED_USERS →
      process_comment cfgDF exState0 exBareComment =
        post_user_notice cfgDF exState0
          (pr_number_from_url exBareComment.issue_url) exBareComment.login
          exBareComment.html_url) ∧
    (exBareComment.login ∈ ALLOWED_USERS →
      process_comment cfgDF exState0 exBareComment =
        post_supported_benchmarks cfgDF exState0
          (pr_number_from_url exBareComment.issue_url) exBareComment.login
          exBareComment.html_url []) :=
  C10_bare_run_benchmark cfgDF exState0 exBareComment (by decide) (by decide)

end Scrape

